import Mathlib

/-!
Verification of the Riivolution patch engine (DiscIO/RiivolutionPatcher.cpp)
and the frame patch engine (Core/PatchEngine.cpp).

Conventions of the embedding:
* C++ `u8`/`u16`/`u32`/`u64` quantities are embedded as `Nat`.  All the
  arithmetic performed by the embedded functions (offset/length bookkeeping on
  file content source lists) is monotone accumulation of file offsets and
  sizes; for every input the external collaborators can actually deliver
  (file sizes below 2^63, attribute-derived offsets below 2^32) no unsigned
  overflow can occur in the source, so the `Nat` model agrees with the
  machine-integer semantics on all such inputs.  Where a wrap is semantically
  relevant it is written out explicitly.
* C++ strings are embedded as `List Char`.
* Mutation through pointers is embedded by returning the updated value; a
  collected `FSTBuilderNode*` is embedded as the node's index path in the
  tree, so that mutating through a saved pointer becomes updating at a path.
* Fallible external collaborators (opening a file, reading guest memory) are
  embedded as `Option` results or as explicit collaborator functions.
-/

namespace Riivolution

/-- Origin variant of one content source: embeds the C++
`std::variant` over `ContentFixedByte`, `ContentFile`, `const u8*` and
`ContentVolume` used by `BuilderContentSource::m_source`. -/
inductive SourceOrigin where
  | fixedByte (value : Nat)
  | contentFile (path : List Char) (offset : Nat)
  | rawBytes (base : Nat)
  | volume (offset : Nat)
deriving DecidableEq, Repr

/-- One contiguous byte range of a virtual file: embeds `BuilderContentSource`
(offset within the virtual file, length, origin). -/
structure BuilderContentSource where
  m_offset : Nat
  m_size : Nat
  m_source : SourceOrigin
deriving DecidableEq, Repr

/-- Advancing the internal origin offset when the front of a source is cut
off: embeds the variant dispatch at the end of `SplitAt` (a `ContentFixedByte`
origin carries no offset and is left unchanged). -/
def advanceOrigin (o : SourceOrigin) (n : Nat) : SourceOrigin :=
  match o with
  | .fixedByte v => .fixedByte v
  | .contentFile p off => .contentFile p (off + n)
  | .rawBytes b => .rawBytes (b + n)
  | .volume off => .volume (off + n)

/-- Embeds `SplitAt`: splits one source into the part before `split_at` and
the part from `split_at` on.  As in the source, `split_at` is only ever used
strictly between the start and the end of the source. -/
def SplitAt (s : BuilderContentSource) (split_at : Nat) : BuilderContentSource × BuilderContentSource :=
  let before : BuilderContentSource :=
    { s with m_size := split_at - s.m_offset }
  let after : BuilderContentSource :=
    { m_offset := s.m_offset + before.m_size
      m_size := (s.m_offset + s.m_size) - split_at
      m_source := advanceOrigin s.m_source before.m_size }
  (before, after)

/-- Embeds the first loop of `ApplyPatchToFile`'s in-the-middle branch:
every source strictly straddling `patch_start` or `patch_end` is split in two
at that boundary.  The C++ loop inserts the second half at `i + 1` and
continues the scan there; the recursion below does exactly that. -/
def splitSources (ps pe : Nat) : List BuilderContentSource → List BuilderContentSource
  | [] => []
  | s :: rest =>
    if ps > s.m_offset ∧ ps < s.m_offset + s.m_size then
      (SplitAt s ps).1 :: splitSources ps pe ((SplitAt s ps).2 :: rest)
    else if pe > s.m_offset ∧ pe < s.m_offset + s.m_size then
      (SplitAt s pe).1 :: splitSources ps pe ((SplitAt s pe).2 :: rest)
    else
      s :: splitSources ps pe rest
termination_by l => (l.map (fun s => s.m_size + 1)).sum
decreasing_by
  all_goals simp [SplitAt]
  all_goals omega

/-- Embeds the inner `while` of `ApplyPatchToFile`'s discard loop: starting at
index `i`, erase sources while `patch_end >= offset + size`.  Erasing at a
fixed index while the condition holds on the element now at that index is
precisely dropping the longest such run from position `i` on. -/
def eraseWhile (pe i : Nat) (content : List BuilderContentSource) : List BuilderContentSource :=
  content.take i ++ (content.drop i).dropWhile (fun s => s.m_offset + s.m_size ≤ pe)

/-- Embeds the discard loop of `ApplyPatchToFile`: scan for a source whose
offset equals `patch_start`, remember its index in `insert_where`, and erase
the run of sources fully covered by the patch from there. -/
def eraseLoop (ps pe i iw : Nat) (content : List BuilderContentSource) : Nat × List BuilderContentSource :=
  if h : i < content.length then
    if ps = content[i].m_offset then
      eraseLoop ps pe (i + 1) i (eraseWhile pe i content)
    else
      eraseLoop ps pe (i + 1) iw content
  else (iw, content)
termination_by content.length - i
decreasing_by
  · have hlen : (eraseWhile pe i content).length ≤ content.length := by
      have h1 := ((content.drop i).dropWhile_sublist
        (fun s => decide (s.m_offset + s.m_size ≤ pe))).length_le
      simp only [eraseWhile, List.length_append, List.length_take, List.length_drop] at h1 ⊢
      omega
    omega
  · omega

/-- Embeds the final loop of `ApplyPatchToFile`: walking backwards from the
end, drop sources whose start offset is at or past the new file size, stopping
at the first one that starts before it. -/
def dropTrailing (size : Nat) (content : List BuilderContentSource) : List BuilderContentSource :=
  (content.reverse.dropWhile (fun s => size ≤ s.m_offset)).reverse

/-- Embeds `ApplyPatchToFile(patch, file_node, external_filename,
file_patch_offset, file_patch_length, resize)`.  `external_size` is the result
of opening the external file: `none` when the open fails (the call is then a
no-op), `some n` for a file of size `n`.  The pair returned is the node's new
`(m_size, content list)`. -/
def ApplyPatchToFile (external_size : Option Nat) (external_filename : List Char)
    (file_patch_offset file_patch_length : Nat) (resize : Bool)
    (m_size : Nat) (content : List BuilderContentSource) :
    Nat × List BuilderContentSource :=
  match external_size with
  | none => (m_size, content)
  | some external_filesize =>
    let patch_start := file_patch_offset
    let patch_size := if file_patch_length = 0 then external_filesize else file_patch_length
    let patch_end := patch_start + patch_size
    let target_filesize := if resize then patch_end else max m_size patch_end
    let content1 :=
      if m_size ≤ patch_start then
        -- patch is past the end of the existing file: extend only
        let widened :=
          if m_size < patch_start then
            content ++ [⟨m_size, patch_start - m_size, .fixedByte 0⟩]
          else content
        if external_filesize < patch_size then
          widened ++ [⟨patch_start, external_filesize, .contentFile external_filename 0⟩,
                      ⟨patch_start + external_filesize, patch_size - external_filesize, .fixedByte 0⟩]
        else
          widened ++ [⟨patch_start, patch_size, .contentFile external_filename 0⟩]
      else
        -- patch touches existing data: split, discard the overlap, insert
        let split := splitSources patch_start patch_end content
        let ew := eraseLoop patch_start patch_end 0 0 split
        if external_filesize < patch_size then
          List.insertIdx ew.1 ⟨patch_start, external_filesize, .contentFile external_filename 0⟩
            (List.insertIdx ew.1
              ⟨patch_start + external_filesize, patch_size - external_filesize, .fixedByte 0⟩ ew.2)
        else
          List.insertIdx ew.1 ⟨patch_start, patch_size, .contentFile external_filename 0⟩ ew.2
    (target_filesize, dropTrailing target_filesize content1)

/-- The coverage invariant of a File node's content source list, from the
start position `pos`: each source begins exactly where the previous one
ended and the final end equals `size`.  `coversFrom 0 content size = true`
states that the list is sorted by offset, contiguous, non-overlapping and
exactly covers `[0, size)`. -/
def coversFrom : Nat → List BuilderContentSource → Nat → Bool
  | pos, [], size => pos == size
  | pos, s :: rest, size => (s.m_offset == pos) && coversFrom (pos + s.m_size) rest size

/-- Sum of the lengths of a content source list. -/
def totalSize (content : List BuilderContentSource) : Nat :=
  (content.map (fun s => s.m_size)).sum

/-- Embeds `DiscIO::FSTBuilderNode`: a filename, a declared size, and either a
content source list (file node) or a child list (folder node), mirroring the
two-armed `std::variant` in `m_content`. -/
inductive FSTBuilderNode where
  | file (m_filename : List Char) (m_size : Nat) (content : List BuilderContentSource)
  | folder (m_filename : List Char) (m_size : Nat) (children : List FSTBuilderNode)
deriving Repr

/-- The node's filename field. -/
def FSTBuilderNode.filenameOf : FSTBuilderNode → List Char
  | .file n _ _ => n
  | .folder n _ _ => n

/-- Embeds `FSTBuilderNode::IsFile()`. -/
def FSTBuilderNode.IsFile : FSTBuilderNode → Bool
  | .file _ _ _ => true
  | .folder _ _ _ => false

/-- Updating the element at one index of a list, used to embed in-place
mutation of one `std::vector` element through an iterator or pointer. -/
def modifyIdx {α : Type} (f : α → α) : Nat → List α → List α
  | _, [] => []
  | 0, x :: xs => f x :: xs
  | n + 1, x :: xs => x :: modifyIdx f n xs

/-- The index of the first node with the given filename, with the node
itself: embeds the `std::find_if` over the node vector in
`FindFileNodeInFST`. -/
def lookupByFilename (name : List Char) : List FSTBuilderNode → Option (Nat × FSTBuilderNode)
  | [] => none
  | n :: rest =>
    if n.filenameOf = name then some (0, n)
    else (lookupByFilename name rest).map (fun p => (p.1 + 1, p.2))

/-- The path after stripping leading slashes: embeds the `while` prologue of
`FindFileNodeInFST`. -/
def fstPathBody (full_path : List Char) : List Char :=
  full_path.dropWhile (· == '/')

/-- The first component of the stripped path: the characters up to the first
slash (all of it when there is none), embedding `path.substr(0,
path.find('/'))`.  The current level is a file exactly when this is the whole
stripped path (`find` returned `npos`). -/
def fstPathName (full_path : List Char) : List Char :=
  (fstPathBody full_path).takeWhile (· != '/')

/-- Embeds `FindFileNodeInFST(full_path, fst, create_if_not_exists)`.  The
C++ returns a pointer into the tree and mutates the tree when creating; the
embedding returns the found-or-created node's value together with the updated
tree.  `(none, fst)` embeds returning `nullptr` with the tree untouched.
Note that, as in the source, the recursion after creating a new folder always
passes `create = true`. -/
def FindFileNodeInFST (full_path : List Char) (fst : List FSTBuilderNode) (create_if_not_exists : Bool) :
    Option FSTBuilderNode × List FSTBuilderNode :=
  match lookupByFilename (fstPathName full_path) fst with
  | none =>
    if !create_if_not_exists then (none, fst)
    else if (fstPathName full_path).length = (fstPathBody full_path).length then
      (some (.file (fstPathName full_path) 0 []), fst ++ [.file (fstPathName full_path) 0 []])
    else
      let rec_result :=
        FindFileNodeInFST ((fstPathBody full_path).drop ((fstPathName full_path).length + 1)) [] true
      (rec_result.1, fst ++ [.folder (fstPathName full_path) 0 rec_result.2])
  | some (i, node) =>
    match node with
    | .file fname fsize fcontent =>
      if (fstPathName full_path).length = (fstPathBody full_path).length then
        (some (.file fname fsize fcontent), fst)
      else (none, fst)
    | .folder fname fsize fchildren =>
      if (fstPathName full_path).length = (fstPathBody full_path).length then (none, fst)
      else
        let rec_result :=
          FindFileNodeInFST ((fstPathBody full_path).drop ((fstPathName full_path).length + 1))
            fchildren create_if_not_exists
        (rec_result.1, modifyIdx (fun _ => .folder fname fsize rec_result.2) i fst)
termination_by full_path.length
decreasing_by
  all_goals
    have h1 : (fstPathBody full_path).length ≤ full_path.length := by
      simpa [fstPathBody] using (full_path.dropWhile_sublist (· == '/')).length_le
    have h2 : (fstPathName full_path).length ≤ (fstPathBody full_path).length := by
      simpa [fstPathName] using ((fstPathBody full_path).takeWhile_sublist (· != '/')).length_le
    simp only [List.length_drop]
    omega

/-- Shifts a path one position to the right at the current tree level. -/
def bumpPathHead : List Nat → List Nat
  | [] => []
  | i :: p => (i + 1) :: p

mutual

/-- Embeds `FindFilenameNodesInFST(nodes, filename, fst)`.  The C++ collects
raw pointers to every matching file node, in traversal order; a pointer into
the tree is embedded as the node's index path (index in the current list,
then, for each folder level, the index within its children).  Folder nodes
are descended into and are never themselves matched. -/
def FindFilenameNodesInFST (filename : List Char) : List FSTBuilderNode → List (List Nat)
  | [] => []
  | n :: rest =>
    findFilenameHere filename n ++ (FindFilenameNodesInFST filename rest).map bumpPathHead

/-- Paths to the matching file nodes inside one node (relative to the
position of that node). -/
def findFilenameHere (filename : List Char) : FSTBuilderNode → List (List Nat)
  | .file fname _ _ => if fname = filename then [[0]] else []
  | .folder _ _ children => (FindFilenameNodesInFST filename children).map (fun p => 0 :: p)

end

/-- Dereferences-and-mutates one collected pointer: applies `f` to the node
at index path `p`.  A path `[i]` addresses the i-th node of the list; a path
`i :: p` with `p` nonempty descends into the children of the folder at index
`i`. -/
def applyAtPath (f : FSTBuilderNode → FSTBuilderNode) : List Nat → List FSTBuilderNode → List FSTBuilderNode
  | [], fst => fst
  | [i], fst => modifyIdx f i fst
  | i :: j :: p, fst =>
    modifyIdx (fun n =>
      match n with
      | .folder fname fsize children => .folder fname fsize (applyAtPath f (j :: p) children)
      | other => other) i fst

/-- The patch application `ApplyPatchToFile(patch, node, external_path, 0,
folder.m_length, folder.m_resize)` on one tree node.  On a file node the
node's size and content list are rewritten; the C++ only ever reaches this
with file nodes (`std::get` on the content vector), so a folder node is
returned unchanged. -/
def applyPatchToFileNode (external_size : Option Nat) (external_filename : List Char)
    (file_patch_offset file_patch_length : Nat) (resize : Bool) :
    FSTBuilderNode → FSTBuilderNode
  | .file fname fsize fcontent =>
    let r := ApplyPatchToFile external_size external_filename file_patch_offset
      file_patch_length resize fsize fcontent
    .file fname r.1 r.2
  | .folder fname fsize children => .folder fname fsize children

/-- Embeds `::File::FSTEntry`, the host directory scanner's result tree:
a flag for directories, the entry's virtual (bare) name, its physical
(absolute host) path, and its children. -/
inductive FSTEntry where
  | mk (isDirectory : Bool) (virtualName : List Char) (physicalName : List Char)
      (children : List FSTEntry)

/-- Embeds `ApplyUnknownFolderPatchToFST(patch, folder, external_files, fst)`
for a Folder entry whose disc path is empty.  `host_size` embeds the host
file system's open-and-size query keyed by the external file's physical path.
For every non-directory external file, every file node in the tree whose
filename equals the external file's name is collected (as index paths) and
each collected node is patched in order with offset 0, the folder's length
and the folder's resize flag. -/
def ApplyUnknownFolderPatchToFST (host_size : List Char → Option Nat)
    (folder_length : Nat) (folder_resize : Bool) :
    List FSTEntry → List FSTBuilderNode → List FSTBuilderNode
  | [], fst => fst
  | .mk isDir vname pname grandchildren :: rest, fst =>
    if isDir then
      ApplyUnknownFolderPatchToFST host_size folder_length folder_resize rest
        (ApplyUnknownFolderPatchToFST host_size folder_length folder_resize grandchildren fst)
    else
      let nodes := FindFilenameNodesInFST vname fst
      let fst1 := nodes.foldl (fun t p =>
        applyAtPath (applyPatchToFileNode (host_size pname) pname 0 folder_length folder_resize) p t) fst
      ApplyUnknownFolderPatchToFST host_size folder_length folder_resize rest fst1

/-- Follows the spec's words, for comparison with the source embedding:
"resolve every matching node via wildcard resolution by the external file's
own name and apply the Overlay Engine to each match (zero, one, or many)" —
that is, every file node anywhere in the tree whose filename equals the
external file's name receives the overlay, and nothing else changes. -/
def overlayEveryMatchingFile (filename : List Char) (f : FSTBuilderNode → FSTBuilderNode) :
    List FSTBuilderNode → List FSTBuilderNode
  | [] => []
  | .file fname fsize fcontent :: rest =>
    (if fname = filename then f (.file fname fsize fcontent) else .file fname fsize fcontent) ::
      overlayEveryMatchingFile filename f rest
  | .folder fname fsize children :: rest =>
    .folder fname fsize (overlayEveryMatchingFile filename f children) ::
      overlayEveryMatchingFile filename f rest

/-- Modelled from the spec: the addressable-memory interface (an external
collaborator, `PowerPC::HostTryReadU8`).  Guest memory is a map from byte
addresses to `some` byte when the address is readable and `none` when it is
not. -/
def GuestMem : Type := Nat → Option Nat

/-- Modelled from the spec: `PowerPC::HostTryWriteU8` — "write is assumed to
always succeed if reached". -/
def hostTryWriteU8 (value addr : Nat) (mem : GuestMem) : GuestMem :=
  fun a => if a = addr then some value else mem a

/-- The verification loop of `ApplyMemoryPatch(offset, value, original)`:
for `i` from 0 to `n - 1` (the C++ bound is `value.size()`), read the byte at
`offset + i` and compare it with `original[i]`.  The C++ indexes `original`
with the same `i`; that access is only well defined when
`value.size() <= original.size()`, and the embedding reads `original.getD i 0`
for it. -/
def verifyOriginal (mem : GuestMem) (offset : Nat) (original : List Nat) (n : Nat) : Bool :=
  (List.range n).all (fun i =>
    match mem (offset + i) with
    | none => false
    | some b => b == original.getD i 0)

/-- The write loop of `ApplyMemoryPatch(offset, value, original)`: every byte
of `value` is written starting at `offset`, in ascending address order. -/
def writeValueBytes (offset : Nat) (value : List Nat) (mem : GuestMem) : GuestMem :=
  match value with
  | [] => mem
  | v :: rest => writeValueBytes (offset + 1) rest (hostTryWriteU8 v offset mem)

/-- Embeds `ApplyMemoryPatch(u32 offset, value, original)` (the inner
overload): when `original` is non-empty the verification loop runs first and
any failure returns with no write performed; otherwise, or after the loop
succeeds, all value bytes are written. -/
def ApplyMemoryPatch (offset : Nat) (value original : List Nat) (mem : GuestMem) : GuestMem :=
  if original.isEmpty then writeValueBytes offset value mem
  else if verifyOriginal mem offset original value.length then writeValueBytes offset value mem
  else mem

/-- A concrete guest memory holding `0xAA` at `0x1000` and `0xBB` at
`0x1001`, every other address unreadable (the spec's memory-patch gating
example). -/
def memAABB : GuestMem :=
  fun a => if a = 0x1000 then some 0xAA else if a = 0x1001 then some 0xBB else none

end Riivolution

namespace RiivolutionParser

open Riivolution

/-- An attribute of the structured-document reader's tree: a name and a
string value. -/
structure XmlAttr where
  aname : String
  aval : List Char
deriving Repr

/-- A node of the structured-document reader's tree (the external pugixml
collaborator): a name, ordered attributes, ordered children. -/
inductive XmlNode where
  | mk (ename : String) (attrs : List XmlAttr) (children : List XmlNode)

/-- The element's name. -/
def XmlNode.ename : XmlNode → String
  | .mk n _ _ => n

/-- The element's attributes, in document order. -/
def XmlNode.attrs : XmlNode → List XmlAttr
  | .mk _ a _ => a

/-- The element's children, in document order. -/
def XmlNode.children : XmlNode → List XmlNode
  | .mk _ _ c => c

/-- The first attribute with the given name, as pugixml's `attribute(name)`
resolves it. -/
def attrValue (n : XmlNode) (name : String) : Option (List Char) :=
  (n.attrs.find? (fun a => a.aname == name)).map (fun a => a.aval)

/-- `attribute(name).as_string()`: the empty string when the attribute is
missing. -/
def attrAsString (n : XmlNode) (name : String) : List Char :=
  (attrValue n name).getD []

/-- Modelled from the spec: the document reader's numeric and boolean
attribute-value conversions (`as_int`, `as_uint`, `as_bool` of the external
pugixml collaborator).  Only the treatment of a missing attribute (the
caller-supplied default) is fixed by the core; the string conversions
themselves live outside it and are abstract here. -/
structure XmlConv where
  asInt : List Char → Int
  asUint : List Char → Nat
  asBool : List Char → Bool

/-- `attribute(name).as_int(def)`. -/
def attrAsInt (conv : XmlConv) (n : XmlNode) (name : String) (dflt : Int) : Int :=
  match attrValue n name with
  | none => dflt
  | some v => conv.asInt v

/-- `attribute(name).as_uint(def)`. -/
def attrAsUint (conv : XmlConv) (n : XmlNode) (name : String) (dflt : Nat) : Nat :=
  match attrValue n name with
  | none => dflt
  | some v => conv.asUint v

/-- `attribute(name).as_bool(def)`. -/
def attrAsBool (conv : XmlConv) (n : XmlNode) (name : String) (dflt : Bool) : Bool :=
  match attrValue n name with
  | none => dflt
  | some v => conv.asBool v

/-- The first child element with the given name, as pugixml's `child(name)`
resolves it; `none` embeds the null node. -/
def findChildNamed (n : XmlNode) (name : String) : Option XmlNode :=
  n.children.find? (fun c => c.ename == name)

/-- All child elements with the given name, in document order
(`children(name)`). -/
def childrenNamed (n : XmlNode) (name : String) : List XmlNode :=
  n.children.filter (fun c => c.ename == name)

/-- Whether the shorter list is an initial segment of the longer: embeds
`std::string_view::starts_with`. -/
def startsWithChars : List Char → List Char → Bool
  | [], _ => true
  | _ :: _, [] => false
  | t :: ts, c :: cs => t == c && startsWithChars ts cs

/-- The literal token `{$__gameid}` as a character list. -/
def tokGameId : List Char :=
  ['\x7b', '$', '_', '_', 'g', 'a', 'm', 'e', 'i', 'd', '\x7d']

/-- The literal token `{$__region}` as a character list. -/
def tokRegion : List Char :=
  ['\x7b', '$', '_', '_', 'r', 'e', 'g', 'i', 'o', 'n', '\x7d']

/-- The literal token `{$__maker}` as a character list. -/
def tokMaker : List Char :=
  ['\x7b', '$', '_', '_', 'm', 'a', 'k', 'e', 'r', '\x7d']

/-- Embeds the `replace_variables` lambda of `ParseString`: scan the string
left to right; at each position try, in order, the tokens `{$__gameid}`,
`{$__region}` and `{$__maker}`; on a match append the replacement and
continue scanning after the token (the replacement itself is never
rescanned); otherwise copy one character.  `gid`, `region` and `maker` are
the captured game-identifier slices. -/
def replaceVariables (gid region maker : List Char) : List Char → List Char
  | [] => []
  | c :: rest =>
    if startsWithChars tokGameId (c :: rest) then
      gid ++ replaceVariables gid region maker ((c :: rest).drop tokGameId.length)
    else if startsWithChars tokRegion (c :: rest) then
      region ++ replaceVariables gid region maker ((c :: rest).drop tokRegion.length)
    else if startsWithChars tokMaker (c :: rest) then
      maker ++ replaceVariables gid region maker ((c :: rest).drop tokMaker.length)
    else
      c :: replaceVariables gid region maker rest
termination_by l => l.length
decreasing_by
  all_goals simp [tokGameId, tokRegion, tokMaker]
  all_goals omega

/-- Modelled from the spec: one hexadecimal digit of the base-16 `TryParse`
helper (`Common/StringUtil`, not part of these files): the spec reads
"parsing successive 2-character hex pairs". -/
def hexDigit (c : Char) : Option Nat :=
  if '0' ≤ c ∧ c ≤ '9' then some (c.toNat - '0'.toNat)
  else if 'a' ≤ c ∧ c ≤ 'f' then some (c.toNat - 'a'.toNat + 10)
  else if 'A' ≤ c ∧ c ≤ 'F' then some (c.toNat - 'A'.toNat + 10)
  else none

/-- Modelled from the spec: `TryParse(pair, &tmp, 16)` on one 2-character
chunk — the byte value when both characters are hex digits. -/
def tryParseHexPair (c1 c2 : Char) : Option Nat :=
  match hexDigit c1, hexDigit c2 with
  | some a, some b => some (a * 16 + b)
  | _, _ => none

/-- The pair-consuming loop of `read_hex_string`: `none` embeds the C++
early `return {}` discarding everything parsed so far. -/
def readHexPairs : List Char → Option (List Nat)
  | [] => some []
  | [_] => none
  | c1 :: c2 :: rest =>
    match tryParseHexPair c1 c2 with
    | none => none
    | some b => (readHexPairs rest).map (fun l => b :: l)

/-- Embeds the `read_hex_string` lambda of `ParseString`: odd-length input
yields the empty result, an optional leading `0x` is stripped, and the
2-character pairs are parsed; any unparsable pair yields the empty result for
the whole attribute. -/
def readHexString (sv : List Char) : List Nat :=
  if sv.length % 2 = 1 then []
  else
    let sv1 := if startsWithChars ['0', 'x'] sv then sv.drop 2 else sv
    (readHexPairs sv1).getD []

/-- Embeds `DiscIO::Riivolution::File`. -/
structure RiivFile where
  m_disc : List Char
  m_external : List Char
  m_resize : Bool
  m_create : Bool
  m_offset : Nat
  m_length : Nat
deriving Repr

/-- Embeds `DiscIO::Riivolution::Folder`. -/
structure RiivFolder where
  m_disc : List Char
  m_external : List Char
  m_resize : Bool
  m_create : Bool
  m_recursive : Bool
  m_length : Nat
deriving Repr

/-- Embeds `DiscIO::Riivolution::Savegame`. -/
structure RiivSavegame where
  m_external : List Char
  m_clone : Bool
deriving Repr

/-- Embeds `DiscIO::Riivolution::Memory`. -/
structure RiivMemory where
  m_offset : Nat
  m_value : List Nat
  m_valuefile : List Char
  m_original : List Nat
  m_ocarina : Bool
  m_search : Bool
  m_align : Nat
deriving Repr

/-- Embeds `DiscIO::Riivolution::Patch` (the lists the parser fills). -/
structure RiivPatch where
  m_id : List Char
  m_root : List Char
  m_file_patches : List RiivFile
  m_folder_patches : List RiivFolder
  m_savegame_patches : List RiivSavegame
  m_memory_patches : List RiivMemory
deriving Repr

/-- Embeds `DiscIO::Riivolution::Disc`. -/
structure RiivDisc where
  m_version : Int
  m_root : List Char
  m_patches : List RiivPatch
deriving Repr

/-- Embeds `CheckRegion(xml_regions, game_region)`: an empty region list
matches any region; otherwise some region's `type` attribute must equal the
game's region character. -/
def CheckRegion (xml_regions : List XmlNode) (game_region : List Char) : Bool :=
  if xml_regions.isEmpty then true
  else xml_regions.any (fun r => attrAsString r "type" == game_region)

/-- The identity-filter loop of `ParseString`: each attribute of the `id`
element is checked in document order and any mismatch rejects the whole
document. -/
def checkIdAttrs (conv : XmlConv) (game_id_full game_developer : List Char)
    (revision disc_number : Nat) : List XmlAttr → Bool
  | [] => true
  | a :: rest =>
    let ok :=
      if a.aname == "game" then startsWithChars a.aval game_id_full
      else if a.aname == "developer" then game_developer == a.aval
      else if a.aname == "disc" then (disc_number : Int) == conv.asInt a.aval
      else if a.aname == "version" then (revision : Int) == conv.asInt a.aval
      else true
    ok && checkIdAttrs conv game_id_full game_developer revision disc_number rest

/-- One `<file>` element parsed into a `RiivFile` (`rv` is the
`replace_variables` closure instantiated with the game identity). -/
def parseFileElem (conv : XmlConv) (rv : List Char → List Char) (n : XmlNode) : RiivFile :=
  { m_disc := rv (attrAsString n "disc")
    m_external := rv (attrAsString n "external")
    m_resize := attrAsBool conv n "resize" true
    m_create := attrAsBool conv n "create" false
    m_offset := attrAsUint conv n "offset" 0
    m_length := attrAsUint conv n "length" 0 }

/-- One `<folder>` element parsed into a `RiivFolder`. -/
def parseFolderElem (conv : XmlConv) (rv : List Char → List Char) (n : XmlNode) : RiivFolder :=
  { m_disc := rv (attrAsString n "disc")
    m_external := rv (attrAsString n "external")
    m_resize := attrAsBool conv n "resize" true
    m_create := attrAsBool conv n "create" false
    m_recursive := attrAsBool conv n "recursive" true
    m_length := attrAsUint conv n "length" 0 }

/-- One `<savegame>` element parsed into a `RiivSavegame`. -/
def parseSavegameElem (conv : XmlConv) (rv : List Char → List Char) (n : XmlNode) : RiivSavegame :=
  { m_external := rv (attrAsString n "external")
    m_clone := attrAsBool conv n "clone" true }

/-- One `<memory>` element parsed into a `RiivMemory`. -/
def parseMemoryElem (conv : XmlConv) (rv : List Char → List Char) (n : XmlNode) : RiivMemory :=
  { m_offset := attrAsUint conv n "offset" 0
    m_value := readHexString (attrAsString n "value")
    m_valuefile := rv (attrAsString n "valuefile")
    m_original := readHexString (attrAsString n "original")
    m_ocarina := attrAsBool conv n "ocarina" false
    m_search := attrAsBool conv n "search" false
    m_align := attrAsUint conv n "align" 1 }

/-- The subnode dispatch loop of `ParseString` for one `<patch>` element:
children are visited in document order and appended to the list their element
name selects. -/
def parsePatchSubnodes (conv : XmlConv) (rv : List Char → List Char)
    (acc : RiivPatch) : List XmlNode → RiivPatch
  | [] => acc
  | n :: rest =>
    let acc1 :=
      if n.ename == "file" then
        { acc with m_file_patches := acc.m_file_patches ++ [parseFileElem conv rv n] }
      else if n.ename == "folder" then
        { acc with m_folder_patches := acc.m_folder_patches ++ [parseFolderElem conv rv n] }
      else if n.ename == "savegame" then
        { acc with m_savegame_patches := acc.m_savegame_patches ++ [parseSavegameElem conv rv n] }
      else if n.ename == "memory" then
        { acc with m_memory_patches := acc.m_memory_patches ++ [parseMemoryElem conv rv n] }
      else acc
    parsePatchSubnodes conv rv acc1 rest

/-- One `<patch>` element parsed into a `RiivPatch`. -/
def parsePatchElem (conv : XmlConv) (rv : List Char → List Char) (n : XmlNode) : RiivPatch :=
  parsePatchSubnodes conv rv
    { m_id := attrAsString n "id"
      m_root := rv (attrAsString n "root")
      m_file_patches := []
      m_folder_patches := []
      m_savegame_patches := []
      m_memory_patches := [] }
    n.children

/-- Embeds `ParseString(xml, game_id, revision, disc_number)`.  The byte
buffer and its parse by the external document reader are embedded as
`doc_result : Option XmlNode` — `none` when `doc.load_buffer` fails, `some`
the parsed document root otherwise.  The game identifier is the 6-character
string; `revision` and `disc_number` are the numeric game-identity facts.
Every failure path returns `none`, embedding `std::nullopt`. -/
def ParseString (conv : XmlConv) (doc_result : Option XmlNode) (game_id : List Char)
    (revision disc_number : Nat) : Option RiivDisc :=
  if game_id.length ≠ 6 then none
  else
    let game_id_no_region := (game_id.drop 0).take 3
    let game_region := (game_id.drop 3).take 1
    let game_developer := (game_id.drop 4).take 2
    let rv := replaceVariables game_id_no_region game_region game_developer
    match doc_result with
    | none => none
    | some doc =>
      match findChildNamed doc "wiidisc" with
      | none => none
      | some wiidisc =>
        let version := attrAsInt conv wiidisc "version" (-1)
        if version ≠ 1 then none
        else
          let root := rv (attrAsString wiidisc "root")
          let id_ok :=
            match findChildNamed wiidisc "id" with
            | none => true
            | some idn =>
              checkIdAttrs conv game_id game_developer revision disc_number idn.attrs &&
                CheckRegion (childrenNamed idn "region") game_region
          if !id_ok then none
          else
            some { m_version := version
                   m_root := root
                   m_patches := (childrenNamed wiidisc "patch").map (parsePatchElem conv rv) }

end RiivolutionParser

namespace PatchEngine

/-- Embeds `PatchEngine::PatchType`. -/
inductive PatchType where
  | Patch8Bit
  | Patch16Bit
  | Patch32Bit
deriving DecidableEq, Repr

/-- Embeds `PatchEngine::PatchEntry`. -/
structure PatchEntry where
  type : PatchType
  address : Nat
  value : Nat
  comparand : Nat
  conditional : Bool
deriving Repr

/-- Embeds `PatchEngine::Patch` (the fields `ApplyPatches` reads). -/
structure Patch where
  enabled : Bool
  entries : List PatchEntry
deriving Repr

/-- Modelled from the spec: the collaborators `ApplyFramePatches` drives.
`M` is the whole guest-visible machine state.  `read8`/`read16`/`read32` and
`write8`/`write16`/`write32` embed `PowerPC::HostRead_Uxx` and
`PowerPC::HostWrite_Uxx` (the MMU, an external component); `isRAMAddress`,
`isInstructionRAMAddress` and `readInstruction` embed the MMU queries used by
`IsStackSane`; `applyExistingPatch` embeds
`PowerPC::debug_interface.ApplyExistingPatch`; `geckoRunCodeHandler` and
`actionReplayRunAllActive` embed the two code-handler collaborators. -/
structure FrameEnv (M : Type) where
  read8 : M → Nat → Nat
  read16 : M → Nat → Nat
  read32 : M → Nat → Nat
  write8 : Nat → Nat → M → M
  write16 : Nat → Nat → M → M
  write32 : Nat → Nat → M → M
  isRAMAddress : M → Nat → Bool
  isInstructionRAMAddress : M → Nat → Bool
  readInstruction : M → Nat → Nat
  applyExistingPatch : Nat → M → M
  geckoRunCodeHandler : M → M
  actionReplayRunAllActive : M → M

/-- One entry of `ApplyPatches`'s inner loop: the conditional compare uses
the entry's width (with the comparand truncated to it, embedding the
`static_cast`) and the write stores the truncated value. -/
def applyPatchEntry {M : Type} (env : FrameEnv M) (entry : PatchEntry) (m : M) : M :=
  match entry.type with
  | .Patch8Bit =>
    if !entry.conditional || (env.read8 m entry.address == entry.comparand % 2 ^ 8) then
      env.write8 (entry.value % 2 ^ 8) entry.address m
    else m
  | .Patch16Bit =>
    if !entry.conditional || (env.read16 m entry.address == entry.comparand % 2 ^ 16) then
      env.write16 (entry.value % 2 ^ 16) entry.address m
    else m
  | .Patch32Bit =>
    if !entry.conditional || (env.read32 m entry.address == entry.comparand) then
      env.write32 entry.value entry.address m
    else m

/-- Embeds `ApplyPatches(patches)`: every enabled patch's entries are applied
in order. -/
def ApplyPatches {M : Type} (env : FrameEnv M) (patches : List Patch) (m : M) : M :=
  patches.foldl (fun acc p =>
    if p.enabled then p.entries.foldl (fun acc2 e => applyPatchEntry env e acc2) acc
    else acc) m

/-- Embeds `ApplyMemoryPatches(memory_patch_indices)`: each active index is
handed to the debugger's `ApplyExistingPatch`. -/
def ApplyMemoryPatches {M : Type} (env : FrameEnv M) (indices : List Nat) (m : M) : M :=
  indices.foldl (fun acc i => env.applyExistingPatch i acc) m

/-- Embeds `IsStackSane()`: the stack pointer (`gpr[1]`) must be a RAM
address, the next frame pointer read from it must be above it and addressable
(with 4 bytes of headroom), and the link-register slot must hold the address
of a nonzero instruction.  The `+ 4` address arithmetic wraps at 2^32 as the
`u32` additions do. -/
def IsStackSane {M : Type} (env : FrameEnv M) (gpr1 : Nat) (m : M) : Bool :=
  if !env.isRAMAddress m gpr1 then false
  else
    let next_SP := env.read32 m gpr1
    if next_SP ≤ gpr1 || !env.isRAMAddress m next_SP ||
        !env.isRAMAddress m ((next_SP + 4) % 2 ^ 32) then false
    else
      let address := env.read32 m ((next_SP + 4) % 2 ^ 32)
      env.isInstructionRAMAddress m address && env.readInstruction m address != 0

/-- Embeds `AddMemoryPatch(index)`: appends to `s_on_frame_memory` without
checking for duplicates. -/
def AddMemoryPatch (index : Nat) (s_on_frame_memory : List Nat) : List Nat :=
  s_on_frame_memory ++ [index]

/-- Embeds `RemoveMemoryPatch(index)`: the erase-remove idiom
(`erase(remove(begin, end, index), end)`), which keeps, in order, exactly the
elements different from `index`. -/
def RemoveMemoryPatch (index : Nat) (s_on_frame_memory : List Nat) : List Nat :=
  s_on_frame_memory.filter (fun x => x ≠ index)

/-- One call of the registry's mutators, for stating properties over every
sequence of `AddMemoryPatch`/`RemoveMemoryPatch` calls. -/
inductive RegistryOp where
  | add (index : Nat)
  | remove (index : Nat)

/-- Runs a sequence of registry operations left to right. -/
def runRegistryOps : List RegistryOp → List Nat → List Nat
  | [], r => r
  | .add i :: rest, r => runRegistryOps rest (AddMemoryPatch i r)
  | .remove i :: rest, r => runRegistryOps rest (RemoveMemoryPatch i r)

/-- Embeds `ApplyFramePatches()`: if data or instruction address translation
is off (`MSR.DR`/`MSR.IR` unset) or the stack-sanity heuristic fails, return
`false` with the machine state untouched so the caller reschedules the whole
pass; otherwise apply the built-in frame patches, the active memory patches,
and run the two code handlers, and return `true`.  `msr_dr`/`msr_ir` embed
the MSR bits and `gpr1` the stack pointer register. -/
def ApplyFramePatches {M : Type} (env : FrameEnv M) (s_on_frame : List Patch)
    (s_on_frame_memory : List Nat) (msr_dr msr_ir : Bool) (gpr1 : Nat) (m : M) : Bool × M :=
  if !msr_dr || !msr_ir || !IsStackSane env gpr1 m then
    (false, m)
  else
    let m1 := ApplyPatches env s_on_frame m
    let m2 := ApplyMemoryPatches env s_on_frame_memory m1
    let m3 := env.geckoRunCodeHandler m2
    let m4 := env.actionReplayRunAllActive m3
    (true, m4)

/-- A degenerate machine-state instance (state type `Unit`) used to evaluate
the frame-patch gate on concrete inputs. -/
def unitFrameEnv : FrameEnv Unit :=
  { read8 := fun _ _ => 0
    read16 := fun _ _ => 0
    read32 := fun _ _ => 0
    write8 := fun _ _ m => m
    write16 := fun _ _ m => m
    write32 := fun _ _ m => m
    isRAMAddress := fun _ _ => false
    isInstructionRAMAddress := fun _ _ => false
    readInstruction := fun _ _ => 0
    applyExistingPatch := fun _ m => m
    geckoRunCodeHandler := fun m => m
    actionReplayRunAllActive := fun m => m }

end PatchEngine

/-! ## Theorems -/

section MemoryPatchRegistry

open PatchEngine

/-- The registry after a removal holds exactly what a filter keeps. -/
theorem count_removeMemoryPatch (index x : Nat) (r : List Nat) (hx : x ≠ index) :
    List.count x (RemoveMemoryPatch index r) = List.count x r := by
  simp [RemoveMemoryPatch, List.count_filter, hx]

/-- C10: for every sequence of `AddMemoryPatch`/`RemoveMemoryPatch` calls and
every index, after `RemoveMemoryPatch(index)` the active-memory-patch
registry contains no occurrence of that index — even when it was added more
than once, since `AddMemoryPatch` appends without checking for duplicates —
and the relative order (indeed the multiplicity) of every remaining entry is
unchanged: the result is a sublist of the registry before the call. -/
theorem removeMemoryPatch_removes_every_occurrence (ops : List RegistryOp) (index : Nat) :
    index ∉ RemoveMemoryPatch index (runRegistryOps ops []) ∧
    (RemoveMemoryPatch index (runRegistryOps ops [])).Sublist (runRegistryOps ops []) ∧
    (∀ x : Nat, x ≠ index →
      List.count x (RemoveMemoryPatch index (runRegistryOps ops [])) =
        List.count x (runRegistryOps ops [])) := by
  refine ⟨?_, ?_, ?_⟩
  · simp [RemoveMemoryPatch, List.mem_filter]
  · exact List.filter_sublist _
  · intro x hx
    exact count_removeMemoryPatch index x _ hx

/-- C10 witness: the index 5 added twice is gone entirely, and the count of
the surviving index 7 is unchanged. -/
theorem removeMemoryPatch_removes_every_occurrence_witness :
    5 ∉ RemoveMemoryPatch 5 (runRegistryOps [.add 5, .add 7, .add 5] []) ∧
    List.count 7 (RemoveMemoryPatch 5 (runRegistryOps [.add 5, .add 7, .add 5] [])) =
      List.count 7 (runRegistryOps [.add 5, .add 7, .add 5] []) :=
  ⟨(removeMemoryPatch_removes_every_occurrence [.add 5, .add 7, .add 5] 5).1,
   (removeMemoryPatch_removes_every_occurrence [.add 5, .add 7, .add 5] 5).2.2 7 (by decide)⟩

/-- C4: whenever the per-cycle frame-patch pass runs while data or
instruction address translation is off (`MSR.DR` or `MSR.IR` unset) or the
stack-sanity heuristic fails, `ApplyFramePatches` returns `false` with the
guest-visible machine state untouched: no built-in patch entry, no active
memory patch and no code handler runs, so the whole pass is deferred and
retried later, never partially applied. -/
theorem applyFramePatches_defers_wholesale {M : Type} (env : FrameEnv M)
    (s_on_frame : List Patch) (s_on_frame_memory : List Nat)
    (msr_dr msr_ir : Bool) (gpr1 : Nat) (m : M)
    (h : msr_dr = false ∨ msr_ir = false ∨ IsStackSane env gpr1 m = false) :
    ApplyFramePatches env s_on_frame s_on_frame_memory msr_dr msr_ir gpr1 m = (false, m) := by
  unfold ApplyFramePatches
  rcases h with h | h | h <;> simp [h]

/-- C4 witness: on the degenerate machine state with translation off nothing
is applied and the pass reports deferral. -/
theorem applyFramePatches_defers_wholesale_witness :
    ApplyFramePatches unitFrameEnv [] [] false true 0 () = (false, ()) :=
  applyFramePatches_defers_wholesale unitFrameEnv [] [] false true 0 () (Or.inl rfl)

end MemoryPatchRegistry

section RiivolutionMemoryPatch

open Riivolution

/-- The verification loop succeeds exactly when every byte it reads is
readable and equals the corresponding `original` byte. -/
theorem verifyOriginal_eq_true_iff (mem : GuestMem) (offset n : Nat) (original : List Nat) :
    verifyOriginal mem offset original n = true ↔
      ∀ i, i < n → mem (offset + i) = some (original.getD i 0) := by
  simp only [verifyOriginal, List.all_eq_true, List.mem_range]
  constructor
  · intro h i hi
    have hv := h i hi
    cases hm : mem (offset + i) with
    | none => rw [hm] at hv; simp at hv
    | some b => rw [hm] at hv; simp only [beq_iff_eq] at hv; rw [hv]
  · intro h i hi
    rw [h i hi]
    simp

/-- C2 counterexample: the claim's verification span is wrong on the code.
With memory `[0xAA, 0xBB]` at `0x1000`, `value = [0x11]` and
`original = [0xAA, 0xCC]`, a byte inside `[address, address + len(original))`
differs from `original` (index 1: `0xBB ≠ 0xCC`), yet the entry does not
abort: the code's loop runs only over `len(value)` bytes, so the write is
performed and memory changes. -/
theorem applyMemoryPatch_claim_false_at_short_value :
    ¬ ((∃ i, i < 2 ∧ memAABB (0x1000 + i) ≠ some ([0xAA, 0xCC].getD i 0)) →
        ApplyMemoryPatch 0x1000 [0x11] [0xAA, 0xCC] memAABB = memAABB) := by
  intro hclaim
  have h1 : ApplyMemoryPatch 0x1000 [0x11] [0xAA, 0xCC] memAABB = memAABB :=
    hclaim ⟨1, by decide, by decide⟩
  exact absurd (congrFun h1 0x1000) (by decide)

/-- C2 (amended): for a non-empty `original` the verification loop reads the
current memory at `[address, address + len(value))` one byte at a time,
comparing with the corresponding `original` byte (the code indexes `original`
with the value index, which is only well defined when
`len(value) ≤ len(original)`); on any unreadable address or mismatch among
those bytes the entry aborts with zero bytes written, and only when that
verification succeeds are all resolved value bytes written starting at
`address` in ascending order — no partial write ever occurs. -/
theorem applyMemoryPatch_atomic (offset : Nat) (value original : List Nat) (mem : GuestMem)
    (hne : original ≠ []) (hlen : value.length ≤ original.length) :
    ((∃ i, i < value.length ∧ mem (offset + i) ≠ some (original.getD i 0)) →
        ApplyMemoryPatch offset value original mem = mem) ∧
    ((∀ i, i < value.length → mem (offset + i) = some (original.getD i 0)) →
        ApplyMemoryPatch offset value original mem = writeValueBytes offset value mem) := by
  have hemp : original.isEmpty = false := by
    cases original with
    | nil => exact absurd rfl hne
    | cons a r => rfl
  constructor
  · rintro ⟨i, hi, hne2⟩
    have hv : verifyOriginal mem offset original value.length = false := by
      cases hv : verifyOriginal mem offset original value.length with
      | false => rfl
      | true =>
        exact absurd ((verifyOriginal_eq_true_iff mem offset value.length original).1 hv i hi) hne2
    simp [ApplyMemoryPatch, hemp, hv]
  · intro hall
    have hv : verifyOriginal mem offset original value.length = true :=
      (verifyOriginal_eq_true_iff mem offset value.length original).2 hall
    simp [ApplyMemoryPatch, hemp, hv]

/-- C2 witness: a mismatch at the very first byte aborts the entry with
memory untouched. -/
theorem applyMemoryPatch_atomic_witness :
    ApplyMemoryPatch 0x1000 [0x11] [0x55, 0x66] memAABB = memAABB :=
  (applyMemoryPatch_atomic 0x1000 [0x11] [0x55, 0x66] memAABB (by decide) (by decide)).1
    ⟨0, by decide, by decide⟩

end RiivolutionMemoryPatch

section ParserHelpers

open RiivolutionParser

/-- A failing pair anywhere at an even position poisons the whole hex parse:
the loop's early return discards everything parsed so far. -/
theorem readHexPairs_append_bad : ∀ (A : List Char) (c1 c2 : Char) (B : List Char),
    A.length % 2 = 0 → tryParseHexPair c1 c2 = none →
    readHexPairs (A ++ c1 :: c2 :: B) = none
  | [], c1, c2, B => by
    intro _ hbad
    simp [readHexPairs, hbad]
  | [a], c1, c2, B => by
    intro h _
    simp at h
  | a1 :: a2 :: A', c1, c2, B => by
    intro h hbad
    have hA : A'.length % 2 = 0 := by simp at h; omega
    have ih := readHexPairs_append_bad A' c1 c2 B hA hbad
    cases htp : tryParseHexPair a1 a2 with
    | none => simp [readHexPairs, htp]
    | some b => simp [readHexPairs, htp, ih]

/-- C7: for every byte-string attribute input, hex decoding returns the empty
byte sequence on odd-length input; strips an optional leading `0x`; parses
successive 2-character hex pairs; and when any pair fails to parse the whole
attribute decodes to the empty byte sequence, never to a partial prefix,
while an all-good parse yields exactly the decoded bytes. -/
theorem readHexString_spec (sv rest A B : List Char) (c1 c2 : Char) :
    (sv.length % 2 = 1 → readHexString sv = []) ∧
    (rest.length % 2 = 0 →
      readHexString ('0' :: 'x' :: rest) = (readHexPairs rest).getD []) ∧
    (A.length % 2 = 0 → tryParseHexPair c1 c2 = none →
      readHexPairs (A ++ c1 :: c2 :: B) = none) ∧
    (sv.length % 2 = 0 →
      readHexPairs (if startsWithChars ['0', 'x'] sv then sv.drop 2 else sv) = none →
      readHexString sv = []) ∧
    (sv.length % 2 = 0 → ∀ l : List Nat,
      readHexPairs (if startsWithChars ['0', 'x'] sv then sv.drop 2 else sv) = some l →
      readHexString sv = l) := by
  refine ⟨?_, ?_, ?_, ?_, ?_⟩
  · intro h
    simp [readHexString, h]
  · intro h
    have hsw : startsWithChars ['0', 'x'] ('0' :: 'x' :: rest) = true := by
      simp [startsWithChars]
    simp [readHexString, hsw]
    intro h2
    exact absurd h2 (by omega)
  · exact readHexPairs_append_bad A c1 c2 B
  · intro h hnone
    have hodd : ¬ (sv.length % 2 = 1) := by omega
    simp [readHexString, hodd, hnone]
  · intro h l hsome
    have hodd : ¬ (sv.length % 2 = 1) := by omega
    simp [readHexString, hodd, hsome]

/-- C7 witness: an odd-length attribute decodes to nothing; `0x12` decodes to
the byte 18; and a bad pair after a good pair discards the good prefix. -/
theorem readHexString_spec_witness :
    readHexString ['1'] = [] ∧
    readHexString ['0', 'x', '1', '2'] = [18] ∧
    readHexPairs (['1', '2'] ++ 'z' :: 'z' :: []) = none := by
  refine ⟨?_, ?_, ?_⟩
  · exact (readHexString_spec ['1'] [] [] [] 'z' 'z').1 (by decide)
  · have h := (readHexString_spec ['1'] ['1', '2'] [] [] 'z' 'z').2.1 (by decide)
    rw [show (['0', 'x', '1', '2'] : List Char) = '0' :: 'x' :: ['1', '2'] from rfl, h]
    decide
  · exact (readHexString_spec ['1'] [] ['1', '2'] [] 'z' 'z').2.2.1 (by decide) (by decide)

/-- C6: variable substitution scans left to right; an occurrence of
`{$__gameid}` is replaced by characters 0–2 of the 6-character game
identifier, `{$__region}` by character 3, `{$__maker}` by characters 4–5, in
each case continuing the scan after the token only — the replacement text is
never rescanned, so the substitution is non-recursive — and a position where
no token starts copies one character. -/
theorem replaceVariables_spec (game_id : List Char) (h6 : game_id.length = 6)
    (sv rest : List Char) (c : Char) :
    (replaceVariables ((game_id.drop 0).take 3) ((game_id.drop 3).take 1)
        ((game_id.drop 4).take 2) (tokGameId ++ rest) =
      (game_id.drop 0).take 3 ++ replaceVariables ((game_id.drop 0).take 3)
        ((game_id.drop 3).take 1) ((game_id.drop 4).take 2) rest) ∧
    (replaceVariables ((game_id.drop 0).take 3) ((game_id.drop 3).take 1)
        ((game_id.drop 4).take 2) (tokRegion ++ rest) =
      (game_id.drop 3).take 1 ++ replaceVariables ((game_id.drop 0).take 3)
        ((game_id.drop 3).take 1) ((game_id.drop 4).take 2) rest) ∧
    (replaceVariables ((game_id.drop 0).take 3) ((game_id.drop 3).take 1)
        ((game_id.drop 4).take 2) (tokMaker ++ rest) =
      (game_id.drop 4).take 2 ++ replaceVariables ((game_id.drop 0).take 3)
        ((game_id.drop 3).take 1) ((game_id.drop 4).take 2) rest) ∧
    (startsWithChars tokGameId (c :: sv) = false →
     startsWithChars tokRegion (c :: sv) = false →
     startsWithChars tokMaker (c :: sv) = false →
      replaceVariables ((game_id.drop 0).take 3) ((game_id.drop 3).take 1)
          ((game_id.drop 4).take 2) (c :: sv) =
        c :: replaceVariables ((game_id.drop 0).take 3) ((game_id.drop 3).take 1)
          ((game_id.drop 4).take 2) sv) := by
  refine ⟨?_, ?_, ?_, ?_⟩
  · rw [show tokGameId ++ rest =
      '\x7b' :: ('$' :: '_' :: '_' :: 'g' :: 'a' :: 'm' :: 'e' :: 'i' :: 'd' :: '\x7d' :: rest)
      from rfl]
    rw [replaceVariables]
    simp [startsWithChars, tokGameId, tokRegion, tokMaker]
  · rw [show tokRegion ++ rest =
      '\x7b' :: ('$' :: '_' :: '_' :: 'r' :: 'e' :: 'g' :: 'i' :: 'o' :: 'n' :: '\x7d' :: rest)
      from rfl]
    rw [replaceVariables]
    simp [startsWithChars, tokGameId, tokRegion, tokMaker]
  · rw [show tokMaker ++ rest =
      '\x7b' :: ('$' :: '_' :: '_' :: 'm' :: 'a' :: 'k' :: 'e' :: 'r' :: '\x7d' :: rest)
      from rfl]
    rw [replaceVariables]
    simp [startsWithChars, tokGameId, tokRegion, tokMaker]
  · intro h1 h2 h3
    rw [replaceVariables]
    simp [h1, h2, h3]

/-- C6 witness: on the identifier `RMCE01`, the region token is replaced by
character 3 and a plain character is copied unchanged. -/
theorem replaceVariables_spec_witness :
    replaceVariables ['R', 'M', 'C'] ['E'] ['0', '1'] (tokRegion ++ ['z']) =
      'E' :: replaceVariables ['R', 'M', 'C'] ['E'] ['0', '1'] ['z'] ∧
    replaceVariables ['R', 'M', 'C'] ['E'] ['0', '1'] ['z'] =
      'z' :: replaceVariables ['R', 'M', 'C'] ['E'] ['0', '1'] [] := by
  constructor
  · exact (replaceVariables_spec ['R', 'M', 'C', 'E', '0', '1'] (by decide) [] ['z'] 'z').2.1
  · exact (replaceVariables_spec ['R', 'M', 'C', 'E', '0', '1'] (by decide) [] [] 'z').2.2.2
      (by decide) (by decide) (by decide)

end ParserHelpers

section ParserContract

open RiivolutionParser

/-- C5: `ParseString` produces no `Disc` whenever the game identifier is not
exactly 6 characters long, the document bytes are not well-formed structured
data (the reader yields no tree), the root `wiidisc` element is missing, or
the root's `version` attribute does not convert to 1. -/
theorem parseString_failure_modes (conv : XmlConv) (doc_result : Option XmlNode)
    (game_id : List Char) (revision disc_number : Nat) (d w : XmlNode) :
    (game_id.length ≠ 6 →
      ParseString conv doc_result game_id revision disc_number = none) ∧
    (doc_result = none →
      ParseString conv doc_result game_id revision disc_number = none) ∧
    (doc_result = some d → findChildNamed d "wiidisc" = none →
      ParseString conv doc_result game_id revision disc_number = none) ∧
    (doc_result = some d → findChildNamed d "wiidisc" = some w →
      attrAsInt conv w "version" (-1) ≠ 1 →
      ParseString conv doc_result game_id revision disc_number = none) := by
  refine ⟨?_, ?_, ?_, ?_⟩
  · intro h
    simp [ParseString, h]
  · intro h
    subst h
    simp [ParseString]
  · intro h hchild
    subst h
    simp [ParseString, hchild]
  · intro h hchild hv
    subst h
    simp [ParseString, hchild, hv]

/-- C5 witness: a reader failure (no tree) yields no Disc model. -/
theorem parseString_failure_modes_witness :
    ParseString { asInt := fun _ => 0, asUint := fun _ => 0, asBool := fun _ => false }
      none ['R', 'M', 'C', 'E', '0', '1'] 0 0 = none :=
  (parseString_failure_modes { asInt := fun _ => 0, asUint := fun _ => 0, asBool := fun _ => false }
    none ['R', 'M', 'C', 'E', '0', '1'] 0 0 (.mk "" [] []) (.mk "" [] [])).2.1 rfl

end ParserContract

section PathResolution

open Riivolution

/-- C9: resolving `/foo/bar.bin` with `create = true` on an empty tree
creates exactly one folder `foo` containing exactly one empty file node
`bar.bin` (size 0, empty content source list), and resolving the identical
path again with `create = false` returns that same node and leaves the tree
unchanged. -/
theorem findFileNode_create_idempotent :
    FindFileNodeInFST ('/' :: 'f' :: 'o' :: 'o' :: '/' :: 'b' :: 'a' :: 'r' :: '.' :: 'b' :: 'i' :: 'n' :: [])
        [] true =
      (some (.file ['b', 'a', 'r', '.', 'b', 'i', 'n'] 0 []),
       [.folder ['f', 'o', 'o'] 0 [.file ['b', 'a', 'r', '.', 'b', 'i', 'n'] 0 []]]) ∧
    FindFileNodeInFST ('/' :: 'f' :: 'o' :: 'o' :: '/' :: 'b' :: 'a' :: 'r' :: '.' :: 'b' :: 'i' :: 'n' :: [])
        [.folder ['f', 'o', 'o'] 0 [.file ['b', 'a', 'r', '.', 'b', 'i', 'n'] 0 []]] false =
      (some (.file ['b', 'a', 'r', '.', 'b', 'i', 'n'] 0 []),
       [.folder ['f', 'o', 'o'] 0 [.file ['b', 'a', 'r', '.', 'b', 'i', 'n'] 0 []]]) := by
  constructor <;>
    simp [FindFileNodeInFST, fstPathBody, fstPathName, lookupByFilename, modifyIdx,
      FSTBuilderNode.filenameOf, List.dropWhile, List.takeWhile]

end PathResolution

section OverlayConcrete

open Riivolution

/-- C3: applying a patch at offset 3, length 4, `resize = true`, from a
4-byte external source to a file of size 10 with the single source
`OriginalVolumeRegion [0, 10)` yields exactly
`[OriginalVolumeRegion 0–3), ExternalFile 3–7)]` and node size 7, the
pre-existing `[7, 10)` region having been removed by the trailing-truncation
step. -/
theorem applyPatchToFile_shrink_via_overwrite :
    ApplyPatchToFile (some 4) ['e', 'x', 't'] 3 4 true 10 [⟨0, 10, .volume 0⟩] =
      (7, [⟨0, 3, .volume 0⟩, ⟨3, 4, .contentFile ['e', 'x', 't'] 0⟩]) := by
  simp [ApplyPatchToFile, splitSources, SplitAt, advanceOrigin, eraseLoop, eraseWhile,
    dropTrailing, List.dropWhile, List.insertIdx]

end OverlayConcrete

section WildcardFolderPatch

open Riivolution

/-- Every collected path is nonempty: a file match contributes `[0]` and a
folder descent prepends an index. -/
theorem findPaths_ne_nil (name : List Char) :
    ∀ (l : List FSTBuilderNode), ∀ p ∈ FindFilenameNodesInFST name l, p ≠ [] := by
  intro l
  induction l with
  | nil => simp [FindFilenameNodesInFST]
  | cons n rest ih =>
    intro p hp
    rw [FindFilenameNodesInFST] at hp
    rcases List.mem_append.1 hp with hhere | hbump
    · cases n with
      | file fname fsize c =>
        rw [findFilenameHere] at hhere
        by_cases hm : fname = name
        · simp [hm] at hhere
          simp [hhere]
        · simp [hm] at hhere
      | folder fname fsize children =>
        rw [findFilenameHere] at hhere
        rcases List.mem_map.1 hhere with ⟨q, _, hq⟩
        simp [← hq]
    · rcases List.mem_map.1 hbump with ⟨q, hqmem, hq⟩
      have hqne : q ≠ [] := ih q hqmem
      cases q with
      | nil => exact absurd rfl hqne
      | cons i q' => simp [bumpPathHead] at hq; simp [← hq]

/-- Updating through a shifted path leaves the head node alone. -/
theorem applyAtPath_bump (f : FSTBuilderNode → FSTBuilderNode) (p : List Nat) (hp : p ≠ [])
    (n : FSTBuilderNode) (rest : List FSTBuilderNode) :
    applyAtPath f (bumpPathHead p) (n :: rest) = n :: applyAtPath f p rest := by
  cases p with
  | nil => exact absurd rfl hp
  | cons i q =>
    cases q with
    | nil => simp [bumpPathHead, applyAtPath, modifyIdx]
    | cons j q' => simp [bumpPathHead, applyAtPath, modifyIdx]

/-- Folding updates through shifted paths leaves the head node alone. -/
theorem foldPaths_bump (f : FSTBuilderNode → FSTBuilderNode) :
    ∀ (ps : List (List Nat)), (∀ p ∈ ps, p ≠ []) →
      ∀ (n : FSTBuilderNode) (rest : List FSTBuilderNode),
      (ps.map bumpPathHead).foldl (fun t p => applyAtPath f p t) (n :: rest) =
        n :: ps.foldl (fun t p => applyAtPath f p t) rest := by
  intro ps
  induction ps with
  | nil => intro _ n rest; simp
  | cons p ps' ih =>
    intro h n rest
    simp only [List.map_cons, List.foldl_cons]
    rw [applyAtPath_bump f p (h p (List.mem_cons_self p ps')) n rest]
    exact ih (fun q hq => h q (List.mem_cons_of_mem p hq)) n _

/-- Folding updates through `0 ::`-prefixed paths rewrites exactly the head
folder's children. -/
theorem foldPaths_zero_folder (f : FSTBuilderNode → FSTBuilderNode) :
    ∀ (ps : List (List Nat)), (∀ p ∈ ps, p ≠ []) →
      ∀ (fname : List Char) (fsize : Nat) (children rest : List FSTBuilderNode),
      ((ps.map (fun p => 0 :: p)).foldl (fun t p => applyAtPath f p t)
          (.folder fname fsize children :: rest)) =
        .folder fname fsize (ps.foldl (fun t p => applyAtPath f p t) children) :: rest := by
  intro ps
  induction ps with
  | nil => intro _ fname fsize children rest; simp
  | cons p ps' ih =>
    intro h fname fsize children rest
    simp only [List.map_cons, List.foldl_cons]
    have hp : p ≠ [] := h p (List.mem_cons_self p ps')
    cases p with
    | nil => exact absurd rfl hp
    | cons j q =>
      have hstep : applyAtPath f (0 :: j :: q) (.folder fname fsize children :: rest) =
          .folder fname fsize (applyAtPath f (j :: q) children) :: rest := by
        simp [applyAtPath, modifyIdx]
      rw [hstep]
      exact ih (fun r hr => h r (List.mem_cons_of_mem (j :: q) hr)) fname fsize _ rest

/-- Dereferencing and patching every collected pointer is exactly the
spec-side map: every file node with the wanted filename, anywhere in the
tree, is rewritten by `f` and nothing else changes. -/
theorem foldPaths_findPaths (name : List Char) (f : FSTBuilderNode → FSTBuilderNode) :
    ∀ (l : List FSTBuilderNode),
      (FindFilenameNodesInFST name l).foldl (fun t p => applyAtPath f p t) l =
        overlayEveryMatchingFile name f l
  | [] => by
    simp [FindFilenameNodesInFST, overlayEveryMatchingFile]
  | .file fname fsize c :: rest => by
    rw [FindFilenameNodesInFST, findFilenameHere, List.foldl_append]
    by_cases hm : fname = name
    · rw [if_pos hm]
      have hstep : ([[0]] : List (List Nat)).foldl (fun t p => applyAtPath f p t)
          (.file fname fsize c :: rest) = f (.file fname fsize c) :: rest := by
        simp [applyAtPath, modifyIdx]
      rw [hstep, foldPaths_bump f _ (findPaths_ne_nil name rest),
        foldPaths_findPaths name f rest, overlayEveryMatchingFile, if_pos hm]
    · rw [if_neg hm]
      simp only [List.foldl_nil]
      rw [foldPaths_bump f _ (findPaths_ne_nil name rest),
        foldPaths_findPaths name f rest, overlayEveryMatchingFile, if_neg hm]
  | .folder fname fsize children :: rest => by
    rw [FindFilenameNodesInFST, findFilenameHere, List.foldl_append]
    rw [foldPaths_zero_folder f _ (findPaths_ne_nil name children),
      foldPaths_findPaths name f children]
    rw [foldPaths_bump f _ (findPaths_ne_nil name rest),
      foldPaths_findPaths name f rest]
    rw [overlayEveryMatchingFile]
termination_by l => sizeOf l

/-- C8: for a Folder entry whose disc path is empty and a non-directory
external file, every file node anywhere in the virtual tree whose filename
equals the external file's name — zero, one, or many — receives the overlay
with offset 0, length `folder.m_length`, resize `folder.m_resize` (and
nothing else changes); in particular two equally-named file nodes in
different folders are both patched, as the concrete two-`save.dat` instance
shows. -/
theorem applyUnknownFolderPatch_overlays_every_match (host_size : List Char → Option Nat)
    (folder_length : Nat) (folder_resize : Bool) (vname pname : List Char)
    (fst : List FSTBuilderNode) :
    (ApplyUnknownFolderPatchToFST host_size folder_length folder_resize
        [.mk false vname pname []] fst =
      overlayEveryMatchingFile vname
        (applyPatchToFileNode (host_size pname) pname 0 folder_length folder_resize) fst) ∧
    (ApplyUnknownFolderPatchToFST (fun _ => some 4) 0 true
        [.mk false ['s', 'v'] ['p'] []]
        [.folder ['a'] 0 [.file ['s', 'v'] 10 [⟨0, 10, .volume 0⟩]],
         .folder ['b'] 0 [.file ['s', 'v'] 5 [⟨0, 5, .volume 100⟩]]] =
      [.folder ['a'] 0 [.file ['s', 'v'] 4 [⟨0, 4, .contentFile ['p'] 0⟩]],
       .folder ['b'] 0 [.file ['s', 'v'] 4 [⟨0, 4, .contentFile ['p'] 0⟩]]]) := by
  constructor
  · rw [ApplyUnknownFolderPatchToFST]
    simp only [Bool.false_eq_true, if_false]
    rw [ApplyUnknownFolderPatchToFST]
    exact foldPaths_findPaths vname
      (applyPatchToFileNode (host_size pname) pname 0 folder_length folder_resize) fst
  · simp [ApplyUnknownFolderPatchToFST, FindFilenameNodesInFST, findFilenameHere,
      bumpPathHead, applyAtPath, modifyIdx, applyPatchToFileNode, ApplyPatchToFile,
      splitSources, SplitAt, advanceOrigin, eraseLoop, eraseWhile, dropTrailing,
      List.dropWhile, List.insertIdx]

end WildcardFolderPatch

section OverlayInvariant

open Riivolution

/-- Empty coverage characterization. -/
theorem coversFrom_nil_iff (p q : Nat) : coversFrom p [] q = true ↔ p = q := by
  simp [coversFrom]

/-- Cons coverage characterization. -/
theorem coversFrom_cons_iff (p q : Nat) (s : BuilderContentSource) (rest : List BuilderContentSource) :
    coversFrom p (s :: rest) q = true ↔
      s.m_offset = p ∧ coversFrom (p + s.m_size) rest q = true := by
  simp [coversFrom]

/-- Coverage glues over concatenation. -/
theorem coversFrom_append : ∀ (A B : List BuilderContentSource) (p q r : Nat),
    coversFrom p A q = true → coversFrom q B r = true → coversFrom p (A ++ B) r = true := by
  intro A
  induction A with
  | nil =>
    intro B p q r h1 h2
    rw [coversFrom_nil_iff] at h1
    subst h1
    simpa using h2
  | cons s A' ih =>
    intro B p q r h1 h2
    rw [coversFrom_cons_iff] at h1
    rw [List.cons_append, coversFrom_cons_iff]
    exact ⟨h1.1, ih B _ q r h1.2 h2⟩

/-- A covering list starts before it ends, and every source stays inside the
covered interval. -/
theorem coversFrom_bounds : ∀ (l : List BuilderContentSource) (p q : Nat),
    coversFrom p l q = true →
      p ≤ q ∧ ∀ s ∈ l, p ≤ s.m_offset ∧ s.m_offset + s.m_size ≤ q := by
  intro l
  induction l with
  | nil =>
    intro p q h
    rw [coversFrom_nil_iff] at h
    subst h
    exact ⟨le_refl p, by simp⟩
  | cons s rest ih =>
    intro p q h
    rw [coversFrom_cons_iff] at h
    obtain ⟨ho, hr⟩ := h
    have hrest := ih _ _ hr
    refine ⟨by omega, ?_⟩
    intro s1 hs1
    rcases List.mem_cons.1 hs1 with h1 | h1
    · subst h1
      have := hrest.1
      omega
    · have := hrest.2 s1 h1
      omega

/-- The total length of a covering list is the covered interval's length. -/
theorem coversFrom_totalSize : ∀ (l : List BuilderContentSource) (p q : Nat),
    coversFrom p l q = true → p + totalSize l = q := by
  intro l
  induction l with
  | nil =>
    intro p q h
    rw [coversFrom_nil_iff] at h
    simp [totalSize, h]
  | cons s rest ih =>
    intro p q h
    rw [coversFrom_cons_iff] at h
    have := ih _ _ h.2
    simp only [totalSize, List.map_cons, List.sum_cons] at *
    omega

/-- Projections of `SplitAt`. -/
theorem SplitAt_fst_offset (s : BuilderContentSource) (b : Nat) :
    (SplitAt s b).1.m_offset = s.m_offset := rfl

/-- Projections of `SplitAt`. -/
theorem SplitAt_fst_size (s : BuilderContentSource) (b : Nat) :
    (SplitAt s b).1.m_size = b - s.m_offset := rfl

/-- Projections of `SplitAt`. -/
theorem SplitAt_snd_offset (s : BuilderContentSource) (b : Nat) :
    (SplitAt s b).2.m_offset = s.m_offset + (b - s.m_offset) := rfl

/-- Projections of `SplitAt`. -/
theorem SplitAt_snd_size (s : BuilderContentSource) (b : Nat) :
    (SplitAt s b).2.m_size = (s.m_offset + s.m_size) - b := rfl

/-- Splitting sources preserves coverage: each split replaces one source by
two contiguous halves. -/
theorem splitSources_covers (ps pe : Nat) : ∀ (l : List BuilderContentSource) (p q : Nat),
    coversFrom p l q = true → coversFrom p (splitSources ps pe l) q = true := by
  intro l
  induction l using splitSources.induct ps pe with
  | case1 =>
    intro p q h
    simpa [splitSources] using h
  | case2 s rest h1 ih =>
    intro p q h
    rw [coversFrom_cons_iff] at h
    rw [splitSources, if_pos h1, coversFrom_cons_iff]
    refine ⟨by rw [SplitAt_fst_offset]; exact h.1, ?_⟩
    have hafter : coversFrom ps ((SplitAt s ps).2 :: rest) q = true := by
      rw [coversFrom_cons_iff, SplitAt_snd_offset, SplitAt_snd_size]
      refine ⟨by omega, ?_⟩
      have heq : ps + (s.m_offset + s.m_size - ps) = p + s.m_size := by
        have := h.1
        omega
      rw [heq]
      exact h.2
    have hgoal := ih ps q hafter
    rw [SplitAt_fst_size]
    have heq2 : p + (ps - s.m_offset) = ps := by
      have := h.1
      omega
    rw [heq2]
    exact hgoal
  | case3 s rest h1 h2 ih =>
    intro p q h
    rw [coversFrom_cons_iff] at h
    rw [splitSources, if_neg h1, if_pos h2, coversFrom_cons_iff]
    refine ⟨by rw [SplitAt_fst_offset]; exact h.1, ?_⟩
    have hafter : coversFrom pe ((SplitAt s pe).2 :: rest) q = true := by
      rw [coversFrom_cons_iff, SplitAt_snd_offset, SplitAt_snd_size]
      refine ⟨by omega, ?_⟩
      have heq : pe + (s.m_offset + s.m_size - pe) = p + s.m_size := by
        have := h.1
        omega
      rw [heq]
      exact h.2
    have hgoal := ih pe q hafter
    rw [SplitAt_fst_size]
    have heq2 : p + (pe - s.m_offset) = pe := by
      have := h.1
      omega
    rw [heq2]
    exact hgoal
  | case4 s rest h1 h2 ih =>
    intro p q h
    rw [coversFrom_cons_iff] at h
    rw [splitSources, if_neg h1, if_neg h2, coversFrom_cons_iff]
    exact ⟨h.1, ih _ _ h.2⟩

/-- After splitting, no source strictly straddles `patch_start` or
`patch_end`. -/
theorem splitSources_no_straddle (ps pe : Nat) (hle : ps ≤ pe) :
    ∀ (l : List BuilderContentSource), ∀ s ∈ splitSources ps pe l,
      ¬(s.m_offset < ps ∧ ps < s.m_offset + s.m_size) ∧
      ¬(s.m_offset < pe ∧ pe < s.m_offset + s.m_size) := by
  intro l
  induction l using splitSources.induct ps pe with
  | case1 =>
    simp [splitSources]
  | case2 s rest h1 ih =>
    intro s1 hs1
    rw [splitSources, if_pos h1] at hs1
    rcases List.mem_cons.1 hs1 with h | h
    · subst h
      rw [SplitAt_fst_offset, SplitAt_fst_size]
      constructor <;> (rintro ⟨ha, hb⟩; omega)
    · exact ih s1 h
  | case3 s rest h1 h2 ih =>
    intro s1 hs1
    rw [splitSources, if_neg h1, if_pos h2] at hs1
    rcases List.mem_cons.1 hs1 with h | h
    · subst h
      rw [SplitAt_fst_offset, SplitAt_fst_size]
      constructor <;> (rintro ⟨ha, hb⟩; omega)
    · exact ih s1 h
  | case4 s rest h1 h2 ih =>
    intro s1 hs1
    rw [splitSources, if_neg h1, if_neg h2] at hs1
    rcases List.mem_cons.1 hs1 with h | h
    · subst h
      exact ⟨h1, h2⟩
    · exact ih s1 h

end OverlayInvariant

section OverlayInvariantLoops

open Riivolution

/-- A straddle-free covering list splits cleanly at any interior boundary. -/
theorem covers_decompose_at (b : Nat) : ∀ (l : List BuilderContentSource) (p q : Nat),
    coversFrom p l q = true → p ≤ b → b < q →
    (∀ s ∈ l, ¬(s.m_offset < b ∧ b < s.m_offset + s.m_size)) →
    ∃ A B, l = A ++ B ∧ (∀ s ∈ A, s.m_offset < b) ∧
      coversFrom p A b = true ∧ coversFrom b B q = true ∧ B ≠ [] := by
  intro l
  induction l with
  | nil =>
    intro p q h hpb hbq _
    rw [coversFrom_nil_iff] at h
    exact absurd h (by omega)
  | cons s rest ih =>
    intro p q h hpb hbq hstrad
    rw [coversFrom_cons_iff] at h
    obtain ⟨ho, hr⟩ := h
    by_cases hpb2 : p = b
    · refine ⟨[], s :: rest, rfl, by simp, ?_, ?_, by simp⟩
      · rw [coversFrom_nil_iff]; exact hpb2
      · rw [← hpb2, coversFrom_cons_iff]; exact ⟨ho, hr⟩
    · by_cases hcase : p + s.m_size ≤ b
      · obtain ⟨A', B', heq, hAlt, hcovA, hcovB, hBne⟩ :=
          ih (p + s.m_size) q hr hcase hbq (fun s1 hs1 => hstrad s1 (List.mem_cons_of_mem s hs1))
        refine ⟨s :: A', B', by rw [heq, List.cons_append], ?_, ?_, hcovB, hBne⟩
        · intro s1 hs1
          rcases List.mem_cons.1 hs1 with h1 | h1
          · subst h1; omega
          · exact hAlt s1 h1
        · rw [coversFrom_cons_iff]; exact ⟨ho, hcovA⟩
      · exfalso
        exact hstrad s (List.mem_cons_self s rest) ⟨by omega, by omega⟩

/-- The erase-while loop at the end of a prefix is a `dropWhile` on the
suffix. -/
theorem eraseWhile_append (pe : Nat) (A B : List BuilderContentSource) :
    eraseWhile pe A.length (A ++ B) =
      A ++ B.dropWhile (fun s => s.m_offset + s.m_size ≤ pe) := by
  simp [eraseWhile, List.take_left, List.drop_left]

/-- Dropping the fully-covered run from a covering list: the remainder covers
from some boundary `r` between the patch start and `patch_end`, and its head
(when there is one) starts exactly at `r` and ends past `pe`. -/
theorem dropWhile_covers (pe : Nat) : ∀ (B : List BuilderContentSource) (b q : Nat),
    coversFrom b B q = true → b ≤ pe →
    ∃ r, b ≤ r ∧ r ≤ pe ∧
      coversFrom r (B.dropWhile (fun s => s.m_offset + s.m_size ≤ pe)) q = true ∧
      (B.dropWhile (fun s => s.m_offset + s.m_size ≤ pe) = [] → r = q) ∧
      (∀ s0 B1, B.dropWhile (fun s => s.m_offset + s.m_size ≤ pe) = s0 :: B1 →
        s0.m_offset = r ∧ pe < s0.m_offset + s0.m_size) := by
  intro B
  induction B with
  | nil =>
    intro b q h hb
    rw [coversFrom_nil_iff] at h
    refine ⟨b, le_refl b, hb, ?_, fun _ => h, ?_⟩
    · simpa [List.dropWhile] using (coversFrom_nil_iff b q).2 h
    · intro s0 B1 hcon
      simp [List.dropWhile] at hcon
  | cons s B' ih =>
    intro b q h hb
    rw [coversFrom_cons_iff] at h
    obtain ⟨ho, hr⟩ := h
    by_cases hp : s.m_offset + s.m_size ≤ pe
    · rw [List.dropWhile_cons_of_pos (by simpa using hp)]
      exact ih (b + s.m_size) q hr (by omega)
        |>.imp fun r hrr => ⟨by omega, hrr.2.1, hrr.2.2.1, hrr.2.2.2.1, hrr.2.2.2.2⟩
    · rw [List.dropWhile_cons_of_neg (by simpa using hp)]
      refine ⟨b, le_refl b, hb, ?_, by simp, ?_⟩
      · rw [coversFrom_cons_iff]; exact ⟨ho, hr⟩
      · intro s0 B1 hcon
        injection hcon with h1 h2
        subst h1
        exact ⟨ho, by omega⟩

/-- The head of an appended cons sits at the prefix's length. -/
theorem getElem_append_head (a : BuilderContentSource) :
    ∀ (P X : List BuilderContentSource) (h : P.length < (P ++ a :: X).length),
      (P ++ a :: X)[P.length] = a := by
  intro P
  induction P with
  | nil => intro X h; rfl
  | cons p P' ih =>
    intro X h
    simp only [List.cons_append, List.length_cons, List.getElem_cons_succ]
    exact ih X (by simp)

end OverlayInvariantLoops

section OverlayInvariantErase

open Riivolution

/-- Scanning a run of sources that do not start at `patch_start` advances the
discard loop without changing anything. -/
theorem eraseLoop_skip (ps pe : Nat) :
    ∀ (A : List BuilderContentSource), (∀ s ∈ A, s.m_offset ≠ ps) →
    ∀ (P B : List BuilderContentSource) (iw : Nat),
      eraseLoop ps pe P.length iw (P ++ (A ++ B)) =
        eraseLoop ps pe (P.length + A.length) iw (P ++ (A ++ B)) := by
  intro A
  induction A with
  | nil =>
    intro _ P B iw
    simp
  | cons a A' ih =>
    intro hA P B iw
    simp only [List.cons_append]
    have hb : P.length < (P ++ a :: (A' ++ B)).length := by simp
    have hget : (P ++ a :: (A' ++ B))[P.length] = a := getElem_append_head a P (A' ++ B) hb
    rw [eraseLoop, dif_pos hb, hget,
      if_neg (fun heq => hA a (List.mem_cons_self a A') heq.symm)]
    have hass : P ++ a :: (A' ++ B) = (P ++ [a]) ++ (A' ++ B) := by simp
    have hlen1 : P.length + 1 = (P ++ [a]).length := by simp
    rw [hass, hlen1, ih (fun s hs => hA s (List.mem_cons_of_mem a hs)) (P ++ [a]) B iw]
    have hlen2 : (P ++ [a]).length + A'.length = P.length + (a :: A').length := by
      simp
      omega
    rw [hlen2]

/-- Once every remaining source misses `patch_start`, the discard loop
finishes with the list and saved index unchanged. -/
theorem eraseLoop_none (ps pe : Nat) :
    ∀ (A : List BuilderContentSource), (∀ s ∈ A, s.m_offset ≠ ps) →
    ∀ (P : List BuilderContentSource) (iw : Nat),
      eraseLoop ps pe P.length iw (P ++ A) = (iw, P ++ A) := by
  intro A
  induction A with
  | nil =>
    intro _ P iw
    rw [eraseLoop, dif_neg (by simp)]
  | cons a A' ih =>
    intro hA P iw
    have hb : P.length < (P ++ a :: A').length := by simp
    have hget : (P ++ a :: A')[P.length] = a := getElem_append_head a P A' hb
    rw [eraseLoop, dif_pos hb, hget,
      if_neg (fun heq => hA a (List.mem_cons_self a A') heq.symm)]
    have hass : P ++ a :: A' = (P ++ [a]) ++ A' := by simp
    have hlen1 : P.length + 1 = (P ++ [a]).length := by simp
    rw [hass, hlen1, ih (fun s hs => hA s (List.mem_cons_of_mem a hs)) (P ++ [a]) iw]

/-- At the source that starts exactly at `patch_start`, the discard loop
saves `insert_where` there, drops the fully-covered run, and (when no later
source starts at `patch_start`) returns. -/
theorem eraseLoop_match (ps pe : Nat) (P : List BuilderContentSource)
    (b0 : BuilderContentSource) (Brest : List BuilderContentSource) (iw : Nat)
    (hm : b0.m_offset = ps)
    (hta : ∀ s0 B1, (b0 :: Brest).dropWhile (fun s => s.m_offset + s.m_size ≤ pe) = s0 :: B1 →
      ∀ s ∈ B1, s.m_offset ≠ ps) :
    eraseLoop ps pe P.length iw (P ++ b0 :: Brest) =
      (P.length, P ++ (b0 :: Brest).dropWhile (fun s => s.m_offset + s.m_size ≤ pe)) := by
  have hb : P.length < (P ++ b0 :: Brest).length := by simp
  have hget : (P ++ b0 :: Brest)[P.length] = b0 := getElem_append_head b0 P Brest hb
  rw [eraseLoop, dif_pos hb, hget, if_pos hm.symm]
  rw [show eraseWhile pe P.length (P ++ b0 :: Brest) =
    P ++ (b0 :: Brest).dropWhile (fun s => s.m_offset + s.m_size ≤ pe) from
    eraseWhile_append pe P (b0 :: Brest)]
  cases hB1 : (b0 :: Brest).dropWhile (fun s => s.m_offset + s.m_size ≤ pe) with
  | nil =>
    rw [eraseLoop, dif_neg (by simp)]
  | cons s0 B1 =>
    have hass : P ++ s0 :: B1 = (P ++ [s0]) ++ B1 := by simp
    have hlen1 : P.length + 1 = (P ++ [s0]).length := by simp
    rw [hass, hlen1, eraseLoop_none ps pe B1 (hta s0 B1 hB1) (P ++ [s0]) P.length]

/-- The discard loop started from index 0 on a straddle-free covering list:
it returns the position of the patch-start source and the list with the
fully-covered run removed. -/
theorem eraseLoop_run (ps pe : Nat) (A : List BuilderContentSource)
    (b0 : BuilderContentSource) (Brest : List BuilderContentSource) (iw : Nat)
    (hA : ∀ s ∈ A, s.m_offset ≠ ps) (hm : b0.m_offset = ps)
    (hta : ∀ s0 B1, (b0 :: Brest).dropWhile (fun s => s.m_offset + s.m_size ≤ pe) = s0 :: B1 →
      ∀ s ∈ B1, s.m_offset ≠ ps) :
    eraseLoop ps pe 0 iw (A ++ b0 :: Brest) =
      (A.length, A ++ (b0 :: Brest).dropWhile (fun s => s.m_offset + s.m_size ≤ pe)) := by
  have h1 := eraseLoop_skip ps pe A hA [] (b0 :: Brest) iw
  simp only [List.nil_append, List.length_nil, Nat.zero_add] at h1
  rw [h1]
  exact eraseLoop_match ps pe A b0 Brest iw hm hta

/-- Inserting at the length of the prefix lands between the prefix and the
suffix. -/
theorem insertIdx_at_length {α : Type} : ∀ (A : List α) (x : α) (B : List α),
    List.insertIdx A.length x (A ++ B) = A ++ x :: B := by
  intro A
  induction A with
  | nil => intro x B; rfl
  | cons a A' ih =>
    intro x B
    rw [List.cons_append, List.length_cons, List.insertIdx_succ_cons, ih, List.cons_append]

/-- `dropWhile` skips a block that satisfies the predicate throughout. -/
theorem dropWhile_append_all {α : Type} (p : α → Bool) :
    ∀ (l1 l2 : List α), (∀ x ∈ l1, p x = true) →
      List.dropWhile p (l1 ++ l2) = List.dropWhile p l2 := by
  intro l1
  induction l1 with
  | nil => intro l2 _; rfl
  | cons a l1x ih =>
    intro l2 h
    rw [List.cons_append, List.dropWhile_cons_of_pos (h a (List.mem_cons_self a l1x))]
    exact ih l2 (fun x hx => h x (List.mem_cons_of_mem a hx))

/-- A covering list is a covering part followed by a (zero-length) run that
starts at or past the end; the covering part, when nonempty, ends with a
source starting strictly before the end. -/
theorem covers_zero_suffix_decompose : ∀ (l : List BuilderContentSource) (p t : Nat),
    coversFrom p l t = true →
    ∃ l1 l2, l = l1 ++ l2 ∧ coversFrom p l1 t = true ∧ (∀ s ∈ l2, t ≤ s.m_offset) ∧
      (l1 = [] ∨ ∃ s0 l1x, l1 = l1x ++ [s0] ∧ s0.m_offset < t) := by
  intro l
  induction l with
  | nil =>
    intro p t h
    exact ⟨[], [], rfl, h, by simp, Or.inl rfl⟩
  | cons s rest ih =>
    intro p t h
    rw [coversFrom_cons_iff] at h
    obtain ⟨ho, hr⟩ := h
    by_cases hge : t ≤ s.m_offset
    · have hfull : coversFrom p (s :: rest) t = true :=
        (coversFrom_cons_iff p t s rest).2 ⟨ho, hr⟩
      have hb := coversFrom_bounds (s :: rest) p t hfull
      have hbr := coversFrom_bounds rest (p + s.m_size) t hr
      refine ⟨[], s :: rest, rfl, ?_, ?_, Or.inl rfl⟩
      · rw [coversFrom_nil_iff]
        omega
      · intro s1 hs1
        rcases List.mem_cons.1 hs1 with h1 | h1
        · subst h1; exact hge
        · have := hbr.2 s1 h1
          omega
    · obtain ⟨l1, l2, heq, hc1, hsuf, hlast⟩ := ih (p + s.m_size) t hr
      cases hlast with
      | inl h1 =>
        subst h1
        have hpt : p + s.m_size = t := (coversFrom_nil_iff _ _).1 hc1
        refine ⟨[s], l2, by simpa using heq, ?_, hsuf, Or.inr ⟨s, [], by simp, by omega⟩⟩
        rw [coversFrom_cons_iff]
        exact ⟨ho, (coversFrom_nil_iff _ _).2 hpt⟩
      | inr h1 =>
        obtain ⟨s0, l1x, hx, hlt⟩ := h1
        refine ⟨s :: l1, l2, by rw [heq, List.cons_append], ?_, hsuf,
          Or.inr ⟨s0, s :: l1x, by rw [hx, List.cons_append], hlt⟩⟩
        rw [coversFrom_cons_iff]
        exact ⟨ho, hc1⟩

/-- The trailing-truncation loop restores exact coverage: a list made of a
part covering `[0, t)` followed by sources starting at or past `t` is cut
back to a list covering exactly `[0, t)`. -/
theorem dropTrailing_covers (t : Nat) (L1 L2 : List BuilderContentSource)
    (h1 : coversFrom 0 L1 t = true) (h2 : ∀ s ∈ L2, t ≤ s.m_offset) :
    coversFrom 0 (dropTrailing t (L1 ++ L2)) t = true := by
  obtain ⟨l1, l2, heq, hc1, hge, hlast⟩ := covers_zero_suffix_decompose L1 0 t h1
  subst heq
  unfold dropTrailing
  rw [show ((l1 ++ l2) ++ L2).reverse = (L2.reverse ++ l2.reverse) ++ l1.reverse by simp]
  rw [dropWhile_append_all _ (L2.reverse ++ l2.reverse) l1.reverse ?hall]
  case hall =>
    intro x hx
    rcases List.mem_append.1 hx with hx1 | hx1
    · exact decide_eq_true (h2 x (List.mem_reverse.1 hx1))
    · exact decide_eq_true (hge x (List.mem_reverse.1 hx1))
  cases hlast with
  | inl h1x =>
    subst h1x
    simpa using hc1
  | inr h1x =>
    obtain ⟨s0, l1x, hx, hlt⟩ := h1x
    subst hx
    rw [show (l1x ++ [s0]).reverse = s0 :: l1x.reverse by simp]
    rw [List.dropWhile_cons_of_neg (by simpa using hlt)]
    rw [show (s0 :: l1x.reverse).reverse = l1x ++ [s0] by simp]
    exact hc1

end OverlayInvariantErase

section OverlayInvariantMain

open Riivolution

/-- Coverage of the overlay's append branch (`patch_start >= node size`):
old content, optional zero-fill gap, patch data (with optional zero-fill
tail), then the trailing truncation. -/
theorem coverage_append_branch (ext psize po m_size : Nat) (fn : List Char) (rz : Bool)
    (content : List BuilderContentSource)
    (h : coversFrom 0 content m_size = true) (hms : m_size ≤ po) :
    coversFrom 0
      (dropTrailing (if rz then po + psize else max m_size (po + psize))
        (if ext < psize then
          (if m_size < po then
            content ++ [⟨m_size, po - m_size, SourceOrigin.fixedByte 0⟩]
           else content) ++
            [⟨po, ext, SourceOrigin.contentFile fn 0⟩,
             ⟨po + ext, psize - ext, SourceOrigin.fixedByte 0⟩]
         else
          (if m_size < po then
            content ++ [⟨m_size, po - m_size, SourceOrigin.fixedByte 0⟩]
           else content) ++
            [⟨po, psize, SourceOrigin.contentFile fn 0⟩]))
      (if rz then po + psize else max m_size (po + psize)) = true := by
  have hwide : coversFrom 0
      (if m_size < po then
        content ++ [⟨m_size, po - m_size, SourceOrigin.fixedByte 0⟩]
       else content) po = true := by
    by_cases hlt : m_size < po
    · rw [if_pos hlt]
      refine coversFrom_append content _ 0 m_size po h ?_
      simp [coversFrom]
      omega
    · rw [if_neg hlt]
      have heq : m_size = po := by omega
      rwa [heq] at h
  have hT : (if rz then po + psize else max m_size (po + psize)) = po + psize := by
    cases rz <;> simp <;> omega
  rw [hT]
  by_cases hext : ext < psize
  · rw [if_pos hext]
    have htail : coversFrom po
        [⟨po, ext, SourceOrigin.contentFile fn 0⟩,
         ⟨po + ext, psize - ext, SourceOrigin.fixedByte 0⟩] (po + psize) = true := by
      simp [coversFrom]
      omega
    have hcat := coversFrom_append _ _ 0 po (po + psize) hwide htail
    have hfin := dropTrailing_covers (po + psize) _ [] hcat (by simp)
    simpa using hfin
  · rw [if_neg hext]
    have htail : coversFrom po [⟨po, psize, SourceOrigin.contentFile fn 0⟩] (po + psize) = true := by
      simp [coversFrom]
    have hcat := coversFrom_append _ _ 0 po (po + psize) hwide htail
    have hfin := dropTrailing_covers (po + psize) _ [] hcat (by simp)
    simpa using hfin

/-- Coverage of the overlay's in-the-middle branch (`patch_start <
node size`): split at the patch boundaries, discard the covered run, insert
the patch sources, truncate. -/
theorem coverage_middle_branch (ext psize po m_size : Nat) (fn : List Char) (rz : Bool)
    (content : List BuilderContentSource)
    (h : coversFrom 0 content m_size = true) (hms : po < m_size) :
    coversFrom 0
      (dropTrailing (if rz then po + psize else max m_size (po + psize))
        (if ext < psize then
          List.insertIdx
            (eraseLoop po (po + psize) 0 0 (splitSources po (po + psize) content)).1
            ⟨po, ext, SourceOrigin.contentFile fn 0⟩
            (List.insertIdx
              (eraseLoop po (po + psize) 0 0 (splitSources po (po + psize) content)).1
              ⟨po + ext, psize - ext, SourceOrigin.fixedByte 0⟩
              (eraseLoop po (po + psize) 0 0 (splitSources po (po + psize) content)).2)
         else
          List.insertIdx
            (eraseLoop po (po + psize) 0 0 (splitSources po (po + psize) content)).1
            ⟨po, psize, SourceOrigin.contentFile fn 0⟩
            (eraseLoop po (po + psize) 0 0 (splitSources po (po + psize) content)).2))
      (if rz then po + psize else max m_size (po + psize)) = true := by
  have hcovspl := splitSources_covers po (po + psize) content 0 m_size h
  have hnostr := splitSources_no_straddle po (po + psize) (by omega) content
  obtain ⟨A, B, hl, hAlt, hcovA, hcovB, hBne⟩ :=
    covers_decompose_at po (splitSources po (po + psize) content) 0 m_size hcovspl
      (by omega) hms (fun s hs => (hnostr s hs).1)
  obtain ⟨b0, Brest, rfl⟩ : ∃ b0 Brest, B = b0 :: Brest := by
    cases B with
    | nil => exact absurd rfl hBne
    | cons x xs => exact ⟨x, xs, rfl⟩
  have hb0 : b0.m_offset = po := by
    rw [coversFrom_cons_iff] at hcovB
    exact hcovB.1
  obtain ⟨r, hbr, hrpe, hcovB1, hBnil, hBcons⟩ :=
    dropWhile_covers (po + psize) (b0 :: Brest) po m_size hcovB (by omega)
  have hta : ∀ s0 B1,
      (b0 :: Brest).dropWhile (fun s => s.m_offset + s.m_size ≤ po + psize) = s0 :: B1 →
      ∀ s ∈ B1, s.m_offset ≠ po := by
    intro s0 B1 hd s hsB1
    obtain ⟨h01, h02⟩ := hBcons s0 B1 hd
    have hcB1 : coversFrom r (s0 :: B1) m_size = true := by rw [← hd]; exact hcovB1
    rw [coversFrom_cons_iff] at hcB1
    have hbounds := coversFrom_bounds B1 (r + s0.m_size) m_size hcB1.2
    have := hbounds.2 s hsB1
    omega
  have hA' : ∀ s ∈ A, s.m_offset ≠ po := fun s hs => by have := hAlt s hs; omega
  have herase := eraseLoop_run po (po + psize) A b0 Brest 0 hA' hb0 hta
  cases hd : (b0 :: Brest).dropWhile (fun s => s.m_offset + s.m_size ≤ po + psize) with
  | nil =>
    have hrq : r = m_size := hBnil hd
    rw [hd] at herase
    rw [hl, herase]
    have hT : (if rz then po + psize else max m_size (po + psize)) = po + psize := by
      cases rz <;> simp <;> omega
    rw [hT]
    by_cases hext : ext < psize
    · rw [if_pos hext,
        insertIdx_at_length A ⟨po + ext, psize - ext, SourceOrigin.fixedByte 0⟩ [],
        insertIdx_at_length A ⟨po, ext, SourceOrigin.contentFile fn 0⟩
          (⟨po + ext, psize - ext, SourceOrigin.fixedByte 0⟩ :: [])]
      have htail : coversFrom po
          [⟨po, ext, SourceOrigin.contentFile fn 0⟩,
           ⟨po + ext, psize - ext, SourceOrigin.fixedByte 0⟩] (po + psize) = true := by
        simp [coversFrom]
        omega
      have hcat := coversFrom_append _ _ 0 po (po + psize) hcovA htail
      have hfin := dropTrailing_covers (po + psize) _ [] hcat (by simp)
      simpa using hfin
    · rw [if_neg hext,
        insertIdx_at_length A ⟨po, psize, SourceOrigin.contentFile fn 0⟩ []]
      have htail : coversFrom po [⟨po, psize, SourceOrigin.contentFile fn 0⟩] (po + psize) = true := by
        simp [coversFrom]
      have hcat := coversFrom_append _ _ 0 po (po + psize) hcovA htail
      have hfin := dropTrailing_covers (po + psize) _ [] hcat (by simp)
      simpa using hfin
  | cons s0 B1 =>
    obtain ⟨h01, h02⟩ := hBcons s0 B1 hd
    have hs0mem : s0 ∈ splitSources po (po + psize) content := by
      rw [hl]
      refine List.mem_append_right A ?_
      have hsub := ((b0 :: Brest).dropWhile_sublist
        (fun s => decide (s.m_offset + s.m_size ≤ po + psize))).subset
      apply hsub
      rw [hd]
      exact List.mem_cons_self s0 B1
    have hnost := (hnostr s0 hs0mem).2
    have hrpe2 : r = po + psize := by omega
    have hcovB2 : coversFrom (po + psize) (s0 :: B1) m_size = true := by
      rw [← hrpe2, ← hd]
      exact hcovB1
    have hpem : po + psize < m_size := by
      have hb := coversFrom_bounds (s0 :: B1) (po + psize) m_size hcovB2
      have := hb.2 s0 (List.mem_cons_self s0 B1)
      omega
    have hge : ∀ s ∈ s0 :: B1, po + psize ≤ s.m_offset :=
      fun s hs => ((coversFrom_bounds (s0 :: B1) (po + psize) m_size hcovB2).2 s hs).1
    rw [hd] at herase
    rw [hl, herase]
    by_cases hext : ext < psize
    · rw [if_pos hext,
        insertIdx_at_length A ⟨po + ext, psize - ext, SourceOrigin.fixedByte 0⟩ (s0 :: B1),
        insertIdx_at_length A ⟨po, ext, SourceOrigin.contentFile fn 0⟩
          (⟨po + ext, psize - ext, SourceOrigin.fixedByte 0⟩ :: s0 :: B1)]
      have htail : coversFrom po
          [⟨po, ext, SourceOrigin.contentFile fn 0⟩,
           ⟨po + ext, psize - ext, SourceOrigin.fixedByte 0⟩] (po + psize) = true := by
        simp [coversFrom]
        omega
      have hfront := coversFrom_append _ _ 0 po (po + psize) hcovA htail
      cases rz with
      | true =>
        simp only [if_pos rfl]
        have hsplit : A ++ ⟨po, ext, SourceOrigin.contentFile fn 0⟩ ::
            ⟨po + ext, psize - ext, SourceOrigin.fixedByte 0⟩ :: s0 :: B1 =
            (A ++ [⟨po, ext, SourceOrigin.contentFile fn 0⟩,
              ⟨po + ext, psize - ext, SourceOrigin.fixedByte 0⟩]) ++ (s0 :: B1) := by
          simp
        rw [hsplit]
        exact dropTrailing_covers (po + psize) _ _ hfront hge
      | false =>
        have hT : (if false then po + psize else max m_size (po + psize)) = m_size := by
          simp
          omega
        rw [hT]
        have hall : coversFrom 0 (A ++ ⟨po, ext, SourceOrigin.contentFile fn 0⟩ ::
            ⟨po + ext, psize - ext, SourceOrigin.fixedByte 0⟩ :: s0 :: B1) m_size = true := by
          have := coversFrom_append _ _ 0 (po + psize) m_size hfront hcovB2
          simpa using this
        have hfin := dropTrailing_covers m_size _ [] hall (by simp)
        simpa using hfin
    · rw [if_neg hext,
        insertIdx_at_length A ⟨po, psize, SourceOrigin.contentFile fn 0⟩ (s0 :: B1)]
      have htail : coversFrom po [⟨po, psize, SourceOrigin.contentFile fn 0⟩] (po + psize) = true := by
        simp [coversFrom]
      have hfront := coversFrom_append _ _ 0 po (po + psize) hcovA htail
      cases rz with
      | true =>
        simp only [if_pos rfl]
        have hsplit : A ++ ⟨po, psize, SourceOrigin.contentFile fn 0⟩ :: s0 :: B1 =
            (A ++ [⟨po, psize, SourceOrigin.contentFile fn 0⟩]) ++ (s0 :: B1) := by
          simp
        rw [hsplit]
        exact dropTrailing_covers (po + psize) _ _ hfront hge
      | false =>
        have hT : (if false then po + psize else max m_size (po + psize)) = m_size := by
          simp
          omega
        rw [hT]
        have hall : coversFrom 0
            (A ++ ⟨po, psize, SourceOrigin.contentFile fn 0⟩ :: s0 :: B1) m_size = true := by
          have := coversFrom_append _ _ 0 (po + psize) m_size hfront hcovB2
          simpa using this
        have hfin := dropTrailing_covers m_size _ [] hall (by simp)
        simpa using hfin

end OverlayInvariantMain

section OverlayInvariantTheorem

open Riivolution

/-- C1: for every File node whose content source list is sorted by offset,
contiguous, non-overlapping and exactly covering `[0, node.size)`, and for
every patch offset, patch length, resize flag and openable external source
size, one `ApplyPatchToFile` call leaves the list again sorted, contiguous
and non-overlapping with exact coverage of `[0, new size)` (`coversFrom`),
hence with total length equal to the node's updated declared size; and when
the external source cannot be opened the node is unchanged. -/
theorem applyPatchToFile_preserves_coverage (es : Option Nat) (fn : List Char)
    (po pl : Nat) (rz : Bool) (m_size : Nat) (content : List BuilderContentSource)
    (h : coversFrom 0 content m_size = true) :
    coversFrom 0 (ApplyPatchToFile es fn po pl rz m_size content).2
      (ApplyPatchToFile es fn po pl rz m_size content).1 = true ∧
    totalSize (ApplyPatchToFile es fn po pl rz m_size content).2 =
      (ApplyPatchToFile es fn po pl rz m_size content).1 ∧
    (es = none → ApplyPatchToFile es fn po pl rz m_size content = (m_size, content)) := by
  cases es with
  | none =>
    refine ⟨h, ?_, fun _ => rfl⟩
    simp only [ApplyPatchToFile]
    have := coversFrom_totalSize content 0 m_size h
    omega
  | some ext =>
    have core : coversFrom 0 (ApplyPatchToFile (some ext) fn po pl rz m_size content).2
        (ApplyPatchToFile (some ext) fn po pl rz m_size content).1 = true := by
      simp only [ApplyPatchToFile]
      by_cases hms : m_size ≤ po
      · rw [if_pos hms]
        exact coverage_append_branch ext (if pl = 0 then ext else pl) po m_size fn rz content h hms
      · rw [if_neg hms]
        exact coverage_middle_branch ext (if pl = 0 then ext else pl) po m_size fn rz content h
          (by omega)
    refine ⟨core, ?_, fun hh => Option.noConfusion hh⟩
    have := coversFrom_totalSize _ 0 _ core
    omega

/-- C1 witness: the coverage invariant after a concrete overwrite patch, and
the unopenable-source no-op. -/
theorem applyPatchToFile_preserves_coverage_witness :
    coversFrom 0 (ApplyPatchToFile (some 4) ['e'] 3 4 true 10 [⟨0, 10, .volume 0⟩]).2
      (ApplyPatchToFile (some 4) ['e'] 3 4 true 10 [⟨0, 10, .volume 0⟩]).1 = true ∧
    ApplyPatchToFile none ['e'] 3 4 true 10 [⟨0, 10, .volume 0⟩] = (10, [⟨0, 10, .volume 0⟩]) :=
  ⟨(applyPatchToFile_preserves_coverage (some 4) ['e'] 3 4 true 10 [⟨0, 10, .volume 0⟩]
      (by decide)).1,
   (applyPatchToFile_preserves_coverage none ['e'] 3 4 true 10 [⟨0, 10, .volume 0⟩]
      (by decide)).2.2 rfl⟩

end OverlayInvariantTheorem
